import Mathlib

/-!
Verification of the headless-obsidian-livesync change-detection core.

This file shallowly embeds the engine implemented in
`src/modules/coreNode/storageLib/StorageEventManagerNode.ts` and
`src/modules/coreNode/ModuleFileAccessNode.ts`:

* the poll loop `_pollLoop` (one iteration becomes the pure function `pollTick`,
  a run of iterations becomes `pollRun`); the time `Date.now()` is a single
  explicit `now : Nat` per tick, and the filesystem observation made by
  `_scanSnapshot` is the tick's input snapshot (an association list
  `path -> mtimeMs x size`, mirroring the JS `Map` with insertion order and
  unique keys);
* the queue acceptance `appendQueue` (pure filter over a batch, with all
  external predicates — ignore rules, target filter, size ceiling — passed as
  parameters, and the touched registry as an association list `path -> time`);
* the dispatch loop `runQueuedEvents` as a labelled transition system
  (`DispatchStep`): each submitted queue item becomes a task that is shifted
  from the FIFO buffer, acquires one of `N` semaphore permits (the
  `octagonal-wheels` semaphore grants permits in FIFO request order), enters
  the per-path `serialized` critical section (FIFO per key, mutual exclusion
  per key), runs `processFileEvent`, and finally resolves its `WaitInfo`
  handle and releases the permit;
* `ModuleFileAccessNode.stat` / `getFileStub` (the `fs.stat` outcome — success
  with a file kind, or a thrown error — is the explicit `Option RawStat`
  input) and `ModuleFileAccessNode.trash` (`crypto.createHash("sha1")...` is an
  opaque external digest function passed as a parameter `h : String -> String`).
-/

namespace LiveSyncNode

/-- Vault-relative slash-normalized path, as used by the watcher. -/
abbrev Path := String

/-- The per-path data kept in a poll snapshot: `{ mtimeMs, size }` in
`StorageEventManagerNode.snapshot`. -/
structure FInfo where
  mtimeMs : Nat
  size : Nat
  deriving DecidableEq, Repr

/-- `pendingWrites` entry kind: `"CREATE" | "CHANGED"`. -/
inductive PKind where
  | CREATE
  | CHANGED
  deriving DecidableEq, Repr

/-- One `pendingWrites` entry of `StorageEventManagerNode`. -/
structure PendingWrite where
  kind : PKind
  lastMtimeMs : Nat
  lastSize : Nat
  lastChangeAt : Nat
  firstSeenAt : Nat
  deriving DecidableEq, Repr

/-- Event type of a released file event (`FileEventType` restricted to what the
poll loop emits). -/
inductive EvType where
  | CREATE
  | CHANGED
  | DELETE
  deriving DecidableEq, Repr

/-- An event released by the poll loop to `appendQueue`, together with the
stub data it carries (`size`/`mtime` of the `UXFileInfoStub`) and the tick
time at which it was released. -/
structure Released where
  etype : EvType
  path : Path
  size : Nat
  mtimeMs : Nat
  emittedAt : Nat
  skipBatchWait : Bool
  deriving DecidableEq, Repr

/-- Watcher configuration: `scanIntervalMs`, `awaitWriteFinishMs` and
`minCreateHoldMsForEmptyFile` with their source defaults 750 / 1000 / 15000. -/
structure WatcherConfig where
  scanIntervalMs : Nat := 750
  awaitWriteFinishMs : Nat := 1000
  minCreateHoldMsForEmptyFile : Nat := 15000
  deriving DecidableEq, Repr

/-- A poll snapshot: the JS `Map<string, {mtimeMs, size}>` as an insertion
ordered association list with unique keys. -/
abbrev Snap := List (Path × FInfo)

/-- The pending-write table, same representation. -/
abbrev Pendings := List (Path × PendingWrite)

/-- `Map.get` on an insertion-ordered association list: the value of the
first entry with the given key. -/
def alookup {β : Type} (s : List (Path × β)) (p : Path) : Option β :=
  (s.find? (fun e => e.1 = p)).map (fun e => e.2)

/-- In-place update of all entries at key `p` (JS `Map.set` on an existing
key keeps the entry's position). -/
def aupdate {β : Type} (s : List (Path × β)) (p : Path) (f : β → β) : List (Path × β) :=
  s.map (fun e => if e.1 = p then (e.1, f e.2) else e)

/-- `Map.get` on a snapshot. -/
def slookup (s : Snap) (p : Path) : Option FInfo :=
  alookup s p

/-- `Map.get` on the pending table. -/
def plookup (s : Pendings) (p : Path) : Option PendingWrite :=
  alookup s p

/-- In-place update of the pending entry at key `p`. -/
def pupdate (s : Pendings) (p : Path) (f : PendingWrite → PendingWrite) : Pendings :=
  aupdate s p f

/-- Unique-keys well-formedness of an association list (a JS `Map` always
satisfies it). -/
def WFKeys {β : Type} (s : List (Path × β)) : Prop :=
  (s.map Prod.fst).Nodup

instance {β : Type} (s : List (Path × β)) : Decidable (WFKeys s) := by
  unfold WFKeys; infer_instance

/-- Mutable engine state owned by the poll loop: the current snapshot and the
pending-write table. -/
structure EngineState where
  snapshot : Snap
  pendings : Pendings
  deriving DecidableEq, Repr

/-- What one tick observes: the tick's `Date.now()` value and the snapshot
that `_scanSnapshot` returns. -/
structure TickObs where
  now : Nat
  next : Snap
  deriving DecidableEq, Repr

/-- Deletion detection of `_pollLoop`: every path present in the previous
snapshot and absent from the new one is released immediately as a `DELETE`
event carrying the previous size, `Date.now()` timestamps and
`skipBatchWait = true`. -/
def deleteEvents (prev next : Snap) (now : Nat) : List Released :=
  prev.filterMap (fun e =>
    if (slookup next e.1).isNone then
      some ⟨EvType.DELETE, e.1, e.2.size, now, now, true⟩
    else none)

/-- The `existing` branch for a path absent from the previous snapshot:
upgrade the pending entry to CREATE, then refresh `last*` and `lastChangeAt`
if the observed info differs. -/
def upgradeCreate (w : PendingWrite) (info : FInfo) (now : Nat) : PendingWrite :=
  let w1 := { w with kind := PKind.CREATE }
  if w1.lastMtimeMs ≠ info.mtimeMs ∨ w1.lastSize ≠ info.size then
    { w1 with lastMtimeMs := info.mtimeMs, lastSize := info.size, lastChangeAt := now }
  else w1

/-- The `existing` branch for a changed path: refresh `last*` and
`lastChangeAt` if the observed info differs (the kind is kept). -/
def updateIfChanged (w : PendingWrite) (info : FInfo) (now : Nat) : PendingWrite :=
  if w.lastMtimeMs ≠ info.mtimeMs ∨ w.lastSize ≠ info.size then
    { w with lastMtimeMs := info.mtimeMs, lastSize := info.size, lastChangeAt := now }
  else w

/-- Create/change detection of `_pollLoop` for one entry `(p, info)` of the
new snapshot. -/
def detectOne (prev : Snap) (now : Nat) (pends : Pendings) (p : Path) (info : FInfo) :
    Pendings :=
  match slookup prev p with
  | none =>
      match plookup pends p with
      | some _ => pupdate pends p (fun w => upgradeCreate w info now)
      | none => pends ++ [(p, ⟨PKind.CREATE, info.mtimeMs, info.size, now, now⟩)]
  | some prevInfo =>
      if prevInfo.mtimeMs ≠ info.mtimeMs ∨ prevInfo.size ≠ info.size then
        match plookup pends p with
        | some _ => pupdate pends p (fun w => updateIfChanged w info now)
        | none => pends ++ [(p, ⟨PKind.CHANGED, info.mtimeMs, info.size, now, now⟩)]
      else pends

/-- Create/change detection of `_pollLoop`: fold `detectOne` over the new
snapshot in iteration order. -/
def detectPhase (pends : Pendings) (prev next : Snap) (now : Nat) : Pendings :=
  next.foldl (fun ps e => detectOne prev now ps e.1 e.2) pends

/-- The poll loop's `FileEventType` of a pending kind. -/
def evTypeOfKind : PKind → EvType
  | PKind.CREATE => EvType.CREATE
  | PKind.CHANGED => EvType.CHANGED

/-- The flush ("flush stable pending writes") treatment of one pending entry:
returns the kept/updated entry (or `none` if the entry is removed) and the
event released (if any).  `getFileStub` is evaluated at the same tick instant,
so the stub it returns carries the entry's current snapshot data `cur`. -/
def flushOne (cfg : WatcherConfig) (next : Snap) (now : Nat) (e : Path × PendingWrite) :
    Option (Path × PendingWrite) × Option Released :=
  match slookup next e.1 with
  | none => (none, none)
  | some cur =>
      if cur.mtimeMs ≠ e.2.lastMtimeMs ∨ cur.size ≠ e.2.lastSize then
        (some (e.1, { e.2 with lastMtimeMs := cur.mtimeMs, lastSize := cur.size,
                               lastChangeAt := now }), none)
      else if cfg.awaitWriteFinishMs ≤ now - e.2.lastChangeAt then
        if e.2.kind = PKind.CREATE ∧ e.2.lastSize = 0 ∧
            now - e.2.firstSeenAt < cfg.minCreateHoldMsForEmptyFile then
          (some e, none)
        else
          (none, some ⟨evTypeOfKind e.2.kind, e.1, cur.size, cur.mtimeMs, now, false⟩)
      else (some e, none)

/-- The pending table after the flush phase. -/
def flushPendings (cfg : WatcherConfig) (next : Snap) (now : Nat) (pends : Pendings) :
    Pendings :=
  pends.filterMap (fun e => (flushOne cfg next now e).1)

/-- The events released by the flush phase, in table order. -/
def flushEvents (cfg : WatcherConfig) (next : Snap) (now : Nat) (pends : Pendings) :
    List Released :=
  pends.filterMap (fun e => (flushOne cfg next now e).2)

/-- One full iteration of `_pollLoop` on a successful scan: deletion
detection, create/change detection, flush of stable pendings, and wholesale
snapshot replacement.  Returns the new state and the events released to
`appendQueue`, in release order. -/
def pollTick (cfg : WatcherConfig) (st : EngineState) (now : Nat) (next : Snap) :
    EngineState × List Released :=
  let dels := deleteEvents st.snapshot next now
  let pends1 := detectPhase st.pendings st.snapshot next now
  let pends2 := flushPendings cfg next now pends1
  let evs := flushEvents cfg next now pends1
  (⟨next, pends2⟩, dels ++ evs)

/-- A run of successful poll iterations over a list of tick observations. -/
def pollRun (cfg : WatcherConfig) (st : EngineState) : List TickObs → EngineState × List Released
  | [] => (st, [])
  | o :: rest =>
      let r1 := pollTick cfg st o.now o.next
      let r2 := pollRun cfg r1.1 rest
      (r2.1, r1.2 ++ r2.2)

/-- The events of a run that concern one path. -/
def eventsFor (p : Path) (evs : List Released) : List Released :=
  evs.filter (fun e => e.path = p)

/-- A tick observation of the fallible loop: `Date.now()` and the outcome of
`_scanSnapshot` (`none` models a thrown enumeration error, caught by the
`try/catch` around the tick body). -/
structure TickObsE where
  now : Nat
  scan : Option Snap
  deriving DecidableEq, Repr

/-- One iteration of `_pollLoop` including the `catch` branch: on a scan
failure the error is logged and swallowed, nothing is mutated (the `snapshot`
assignment is the last statement of the `try` block) and no event is
released. -/
def pollTickE (cfg : WatcherConfig) (st : EngineState) (o : TickObsE) :
    EngineState × List Released :=
  match o.scan with
  | none => (st, [])
  | some next => pollTick cfg st o.now next

/-- A run of the fallible loop: after a failed tick the loop waits the normal
interval and simply proceeds with the following tick. -/
def pollRunE (cfg : WatcherConfig) (st : EngineState) :
    List TickObsE → EngineState × List Released
  | [] => (st, [])
  | o :: rest =>
      let r1 := pollTickE cfg st o
      let r2 := pollRunE cfg r1.1 rest
      (r2.1, r1.2 ++ r2.2)

/-- `FileEventType` of an event handed to `appendQueue` (the raw batches may
also carry INTERNAL events). -/
inductive QEvType where
  | CREATE
  | CHANGED
  | DELETE
  | INTERNAL
  deriving DecidableEq, Repr

/-- A raw event submitted to `appendQueue`: its type, the stub's path and the
stub's `stat.size`. -/
structure FileEv where
  qtype : QEvType
  path : Path
  size : Nat
  deriving DecidableEq, Repr

/-- The two settings consulted by the `appendQueue` guard. -/
structure NodeSettings where
  isConfigured : Bool
  suspendFileWatching : Bool
  deriving DecidableEq, Repr

/-- The external predicates `appendQueue` applies: `shouldBeIgnored`,
`services.vault.isFileSizeTooLarge` and `services.vault.isTargetFile`. -/
structure VaultPreds where
  shouldBeIgnored : Path → Bool
  isFileSizeTooLarge : Nat → Bool
  isTargetFile : Path → Bool

/-- `ModuleFileAccessNode.touchedMap`: path to the `Date.now()` recorded by
`touched`. -/
abbrev TouchedMap := List (Path × Nat)

/-- `Map.get` on the touched map. -/
def tlookup (m : TouchedMap) (p : Path) : Option Nat :=
  alookup m p

/-- The fixed TTL used by `ModuleFileAccessNode.recentlyTouched`. -/
def touchedTTLMs : Nat := 5000

/-- `ModuleFileAccessNode.touched`: record `Date.now()` for the path
(JS `Map.set`: in-place for an existing key, appended otherwise). -/
def markTouched (m : TouchedMap) (p : Path) (now : Nat) : TouchedMap :=
  if (tlookup m p).isSome then
    m.map (fun e => if e.1 = p then (e.1, now) else e)
  else m ++ [(p, now)]

/-- `ModuleFileAccessNode.recentlyTouched`: a record exists and
`Date.now() - t < 5000`. -/
def recentlyTouched (m : TouchedMap) (now : Nat) (p : Path) : Bool :=
  match tlookup m p with
  | none => false
  | some t => now - t < touchedTTLMs

/-- The per-event acceptance test inside `appendQueue`'s loop, in source
order: ignore rules, size ceiling (CREATE/CHANGED of non-INTERNAL events
only), target-file filter, and self-loop suppression of recently touched
paths for CREATE/CHANGED. -/
def acceptEvent (preds : VaultPreds) (touched : TouchedMap) (now : Nat) (ev : FileEv) :
    Bool :=
  if preds.shouldBeIgnored ev.path = true then false
  else if ev.qtype ≠ QEvType.INTERNAL ∧ preds.isFileSizeTooLarge ev.size = true ∧
      (ev.qtype = QEvType.CREATE ∨ ev.qtype = QEvType.CHANGED) then false
  else if ¬ preds.isTargetFile ev.path = true then false
  else if (ev.qtype = QEvType.CREATE ∨ ev.qtype = QEvType.CHANGED) ∧
      recentlyTouched touched now ev.path = true then false
  else true

/-- `StorageEventManagerNode.appendQueue`: drop the whole batch if the
settings are unconfigured or watching is suspended, otherwise append each
accepted event of the batch to the FIFO buffer (the random `atomicKey` is
bookkeeping only and not modelled). -/
def appendQueue (settings : NodeSettings) (preds : VaultPreds) (touched : TouchedMap)
    (now : Nat) (queue : List FileEv) (params : List FileEv) : List FileEv :=
  if settings.isConfigured = false then queue
  else if settings.suspendFileWatching = true then queue
  else queue ++ params.filter (acceptEvent preds touched now)

/-- What `fs.stat` reported the path to be when it succeeded. -/
inductive FsKind where
  | file
  | dir
  | other
  deriving DecidableEq, Repr

/-- A successful `fs.stat` result (`ctimeMs`, `mtimeMs`, `size` and the kind
of filesystem object). -/
structure RawStat where
  kind : FsKind
  ctimeMs : Nat
  mtimeMs : Nat
  size : Nat
  deriving DecidableEq, Repr

/-- The `UXStat` produced by `ModuleFileAccessNode.stat` (its `type` field is
the constant string `"file"`). -/
structure UXStatM where
  ctime : Nat
  mtime : Nat
  size : Nat
  ftype : String
  deriving DecidableEq, Repr

/-- `ModuleFileAccessNode.stat`: the `try/catch` around `fs.stat` makes a
thrown error (the `none` input) an explicit `null`; a non-regular file is
also `null`; only a regular file yields metadata.  The function is total, so
it never throws. -/
def statNode : Option RawStat → Option UXStatM
  | none => none
  | some st =>
      if st.kind = FsKind.file then
        some ⟨st.ctimeMs, st.mtimeMs, st.size, "file"⟩
      else none

/-- `normalizeVaultRelative`: backslashes become slashes, leading slashes are
stripped.  Stated over the string's character list, which is what the JS
`replace` calls operate on. -/
def normalizeVaultRelative (p : String) : String :=
  String.mk ((p.data.map (fun c => if c = '\\' then '/' else c)).dropWhile
    (fun c => c = '/'))

/-- `path.posix.basename` on a slash-normalized relative file path (vault
file paths never end in a slash): the last slash-separated component. -/
def basenamePosix (rel : String) : String :=
  String.mk ((rel.data.splitOn '/').getLastD rel.data)

/-- The stub returned by the synchronous `ModuleFileAccessNode.getFileStub`. -/
structure FileStubM where
  name : String
  path : Path
  stat : UXStatM
  deriving DecidableEq, Repr

/-- `ModuleFileAccessNode.getFileStub`: the `fssync.statSync` outcome is the
explicit `Option RawStat` input; errors and non-regular files both yield the
absent result, and only a regular file yields a stub. -/
def getFileStubNode (pathRel : String) : Option RawStat → Option FileStubM
  | none => none
  | some st =>
      if st.kind = FsKind.file then
        let rel := normalizeVaultRelative pathRel
        some ⟨basenamePosix rel, rel, ⟨st.ctimeMs, st.mtimeMs, st.size, "file"⟩⟩
      else none

/-- `rel.replace(/\//g, "__")` of `ModuleFileAccessNode.trash`, over the
character list. -/
def replaceSlashes (s : String) : String :=
  String.mk (s.data.foldl (fun acc c => acc ++ (if c = '/' then ['_', '_'] else [c])) [])

/-- The trash destination name of `ModuleFileAccessNode.trash`: the
slash-mangled relative path, a dot, and the truncated digest of
`rel + ":" + Date.now()`.  The external
`crypto.createHash("sha1")...digest("hex").slice(0, 8)` pipeline is the
opaque parameter `h`. -/
def trashDestName (rel : String) (nowMs : Nat) (h : String → String) : String :=
  replaceSlashes rel ++ "." ++ h (rel ++ ":" ++ toString nowMs)

/-- Outcome of `ModuleFileAccessNode.trash`. -/
inductive TrashOutcome where
  | renamedTo (dest : String)
  | deletedForce
  deriving DecidableEq, Repr

/-- `ModuleFileAccessNode.trash`: rename into the trash area under the
derived destination name; on a rename failure (`renameOk = false`) fall back
to `delete(rel, force := true)`. -/
def trashNode (file : String) (nowMs : Nat) (h : String → String) (renameOk : Bool) :
    TrashOutcome :=
  let rel := normalizeVaultRelative file
  let dest := trashDestName rel nowMs h
  if renameOk then TrashOutcome.renamedTo dest else TrashOutcome.deletedForce

/-- Phase of one dispatch task (one buffered queue item) in
`runQueuedEvents`: still buffered; shifted, handle registered, awaiting a
semaphore permit; permit held, queued on the per-path `serialized` lock;
inside `processFileEvent`; finished (handle resolved, permit released). -/
inductive TPhase where
  | queued
  | waitingSlot
  | waitingLock
  | processing
  | done
  deriving DecidableEq, Repr

/-- Mutable state of one dispatch task: its phase and whether its `WaitInfo`
promise has been resolved. -/
structure TaskState where
  phase : TPhase
  resolved : Bool
  deriving DecidableEq, Repr

/-- All tasks buffered, no handle resolved. -/
def initTasks (m : Nat) : List TaskState :=
  List.replicate m ⟨TPhase.queued, false⟩

/-- The phase of task `i`, if it exists. -/
def phaseAt (s : List TaskState) (i : Nat) : Option TPhase :=
  (s[i]?).map (fun t => t.phase)

/-- A task holds a semaphore permit from the moment `acquire()` resolves
until its `finally` block runs. -/
def usesSlot : TPhase → Bool
  | TPhase.waitingLock => true
  | TPhase.processing => true
  | _ => false

/-- Number of semaphore permits currently held. -/
def slotsUsed (s : List TaskState) : Nat :=
  s.countP (fun t => usesSlot t.phase)

/-- Number of `processFileEvent` calls in flight. -/
def processingCount (s : List TaskState) : Nat :=
  s.countP (fun t => t.phase = TPhase.processing)

/-- Small-step semantics of the dispatch loop with concurrency limit `n` for
the submitted items `paths` (task `i` dispatches the `i`-th submitted item).
`start`: a `runQueuedEvents` invocation shifts the FIFO head (so tasks leave
the buffer in submission order), registers the `WaitInfo` handle and requests
a permit.  `grant`: the `octagonal-wheels` semaphore resolves `acquire()` in
FIFO request order when a permit is free, after which the task synchronously
joins the per-path `serialized` queue.  `enter`: the `serialized` keyed lock
admits a task when no task with the same path is inside (mutual exclusion)
and all earlier same-path requesters are finished (FIFO per key).  `finish`:
`processFileEvent` returns (or throws), the handle resolves and the permit is
released. -/
inductive DispatchStep (n : Nat) (paths : List Path) :
    List TaskState → List TaskState → Prop where
  | start (s : List TaskState) (i : Nat) (r : Bool)
      (hi : s[i]? = some ⟨TPhase.queued, r⟩)
      (hfifo : ∀ j, j < i → phaseAt s j ≠ some TPhase.queued) :
      DispatchStep n paths s (s.set i ⟨TPhase.waitingSlot, r⟩)
  | grant (s : List TaskState) (i : Nat) (r : Bool)
      (hi : s[i]? = some ⟨TPhase.waitingSlot, r⟩)
      (hfifo : ∀ j, j < i →
        phaseAt s j ≠ some TPhase.queued ∧ phaseAt s j ≠ some TPhase.waitingSlot)
      (hcap : slotsUsed s < n) :
      DispatchStep n paths s (s.set i ⟨TPhase.waitingLock, r⟩)
  | enter (s : List TaskState) (i : Nat) (r : Bool)
      (hi : s[i]? = some ⟨TPhase.waitingLock, r⟩)
      (hmutex : ∀ j, j < paths.length → j ≠ i → paths[j]? = paths[i]? →
        phaseAt s j ≠ some TPhase.processing)
      (hkeyfifo : ∀ j, j < i → paths[j]? = paths[i]? →
        phaseAt s j = some TPhase.done) :
      DispatchStep n paths s (s.set i ⟨TPhase.processing, r⟩)
  | finish (s : List TaskState) (i : Nat) (r : Bool)
      (hi : s[i]? = some ⟨TPhase.processing, r⟩) :
      DispatchStep n paths s (s.set i ⟨TPhase.done, true⟩)

/-- States reachable by the dispatch loop from the all-buffered state. -/
def DispatchReach (n : Nat) (paths : List Path) (s : List TaskState) : Prop :=
  Relation.ReflTransGen (DispatchStep n paths) (initTasks paths.length) s

/-- The per-path effect of the detection phase on the pending entry of a path
present in the new snapshot with info `i`, given its previous-snapshot info
and its old pending entry. -/
def detectResult (old : Option PendingWrite) (prevI : Option FInfo) (i : FInfo)
    (now : Nat) : Option PendingWrite :=
  match prevI with
  | none =>
      match old with
      | some w => some (upgradeCreate w i now)
      | none => some ⟨PKind.CREATE, i.mtimeMs, i.size, now, now⟩
  | some pv =>
      if pv.mtimeMs ≠ i.mtimeMs ∨ pv.size ≠ i.size then
        match old with
        | some w => some (updateIfChanged w i now)
        | none => some ⟨PKind.CHANGED, i.mtimeMs, i.size, now, now⟩
      else old

/-- The release condition of the flush phase for a pending entry whose
snapshot info still equals its recorded `last*` data: the quiet window has
elapsed and the empty-create hold does not block. -/
def stableCond (cfg : WatcherConfig) (w : PendingWrite) (t : Nat) : Prop :=
  cfg.awaitWriteFinishMs ≤ t - w.lastChangeAt ∧
    ¬(w.kind = PKind.CREATE ∧ w.lastSize = 0 ∧
      t - w.firstSeenAt < cfg.minCreateHoldMsForEmptyFile)

instance (cfg : WatcherConfig) (w : PendingWrite) (t : Nat) :
    Decidable (stableCond cfg w t) := by
  unfold stableCond; infer_instance

/-- Inductive invariant of the dispatch system: lengths agree, the held
permits never exceed the limit, a resolved handle belongs to a finished task,
and among two same-path tasks the later-submitted one is processing or done
only once the earlier one is done. -/
def DInv (n : Nat) (paths : List Path) (s : List TaskState) : Prop :=
  s.length = paths.length ∧
  slotsUsed s ≤ n ∧
  (∀ (i : Nat) (t : TaskState), s[i]? = some t → t.resolved = true →
    t.phase = TPhase.done) ∧
  (∀ (i j : Nat) (ti tj : TaskState), i < j → paths[i]? = paths[j]? →
    s[i]? = some ti → s[j]? = some tj →
    (tj.phase = TPhase.processing ∨ tj.phase = TPhase.done) → ti.phase = TPhase.done)

/-- A stand-in digest for evaluating the trash naming scheme on concrete
inputs.  The destination-name collision exhibited below does not depend on
the digest at all: the two hash inputs coincide, so any digest function
yields the same truncated hash and hence the same destination name. -/
def someDigest : String → String := fun s => s

theorem alookup_nil {β : Type} (p : Path) : alookup ([] : List (Path × β)) p = none :=
  rfl

theorem alookup_cons {β : Type} (e : Path × β) (s : List (Path × β)) (p : Path) :
    alookup (e :: s) p = if e.1 = p then some e.2 else alookup s p := by
  by_cases h : e.1 = p <;> simp [alookup, List.find?_cons, h]

theorem alookup_append_of_none {β : Type} {s : List (Path × β)} {p : Path}
    (t : List (Path × β)) (h : alookup s p = none) :
    alookup (s ++ t) p = alookup t p := by
  induction s with
  | nil => simp
  | cons e s ih =>
      rw [alookup_cons] at h
      by_cases he : e.1 = p
      · simp [he] at h
      · rw [List.cons_append, alookup_cons, if_neg he]
        exact ih (by simpa [he] using h)

theorem alookup_append_of_some {β : Type} {s : List (Path × β)} {p : Path} {b : β}
    (t : List (Path × β)) (h : alookup s p = some b) :
    alookup (s ++ t) p = some b := by
  induction s with
  | nil => simp [alookup_nil] at h
  | cons e s ih =>
      rw [alookup_cons] at h
      by_cases he : e.1 = p
      · rw [List.cons_append, alookup_cons, if_pos he]
        simpa [he] using h
      · rw [List.cons_append, alookup_cons, if_neg he]
        exact ih (by simpa [he] using h)

theorem alookup_eq_none {β : Type} {s : List (Path × β)} {p : Path} :
    alookup s p = none ↔ p ∉ s.map Prod.fst := by
  induction s with
  | nil => simp [alookup_nil]
  | cons e s ih =>
      rw [alookup_cons]
      by_cases he : e.1 = p
      · simp [he]
      · rw [if_neg he, List.map_cons]
        simp only [List.mem_cons, not_or, ih]
        exact ⟨fun hn => ⟨fun hpe => he hpe.symm, hn⟩, fun hpair => hpair.2⟩

theorem aupdate_cons {β : Type} (e : Path × β) (s : List (Path × β)) (p : Path)
    (f : β → β) :
    aupdate (e :: s) p f = (if e.1 = p then (e.1, f e.2) else e) :: aupdate s p f :=
  rfl

theorem alookup_aupdate_self {β : Type} (s : List (Path × β)) (p : Path) (f : β → β) :
    alookup (aupdate s p f) p = (alookup s p).map f := by
  induction s with
  | nil => rfl
  | cons e s ih =>
      rw [aupdate_cons]
      by_cases he : e.1 = p
      · rw [if_pos he, alookup_cons, alookup_cons, if_pos he, if_pos he]
        rfl
      · rw [if_neg he, alookup_cons, alookup_cons, if_neg he, if_neg he, ih]

theorem alookup_aupdate_ne {β : Type} {q p : Path} (s : List (Path × β)) (f : β → β)
    (h : q ≠ p) : alookup (aupdate s p f) q = alookup s q := by
  induction s with
  | nil => rfl
  | cons e s ih =>
      rw [aupdate_cons]
      by_cases he : e.1 = p
      · have hq : ¬(e.1 = q) := fun hc => h (hc.symm.trans he)
        rw [if_pos he]
        simp [alookup_cons, hq, ih]
      · rw [if_neg he, alookup_cons, alookup_cons, ih]

theorem keys_aupdate {β : Type} (s : List (Path × β)) (p : Path) (f : β → β) :
    (aupdate s p f).map Prod.fst = s.map Prod.fst := by
  induction s with
  | nil => rfl
  | cons e s ih =>
      rw [aupdate_cons]
      by_cases he : e.1 = p
      · rw [if_pos he, List.map_cons, List.map_cons, ih]
      · rw [if_neg he, List.map_cons, List.map_cons, ih]

theorem WFKeys_aupdate {β : Type} {s : List (Path × β)} (p : Path) (f : β → β)
    (h : WFKeys s) : WFKeys (aupdate s p f) := by
  unfold WFKeys at h ⊢
  rwa [keys_aupdate]

theorem WFKeys_append_single {β : Type} {s : List (Path × β)} {p : Path} (b : β)
    (h : WFKeys s) (hp : alookup s p = none) : WFKeys (s ++ [(p, b)]) := by
  unfold WFKeys at h ⊢
  rw [List.map_append]
  rw [List.nodup_append]
  refine ⟨h, List.nodup_singleton p, ?_⟩
  intro x hx hx1
  rcases List.mem_singleton.mp hx1 with rfl
  exact (alookup_eq_none.mp hp) hx

theorem alookup_append_single_ne {β : Type} {q p : Path} (s : List (Path × β)) (b : β)
    (h : q ≠ p) : alookup (s ++ [(q, b)]) p = alookup s p := by
  cases hl : alookup s p with
  | none =>
      rw [alookup_append_of_none _ hl, alookup_cons, if_neg h, alookup_nil]
  | some b2 => exact alookup_append_of_some _ hl

theorem alookup_append_single_self {β : Type} {p : Path} (s : List (Path × β)) (b : β)
    (h : alookup s p = none) : alookup (s ++ [(p, b)]) p = some b := by
  rw [alookup_append_of_none _ h, alookup_cons, if_pos rfl]

theorem detectOne_lookup_ne {q p : Path} (prev : Snap) (now : Nat) (pends : Pendings)
    (iq : FInfo) (h : q ≠ p) :
    plookup (detectOne prev now pends q iq) p = plookup pends p := by
  simp only [detectOne, plookup, pupdate]
  split
  · split
    · exact alookup_aupdate_ne _ _ (Ne.symm h)
    · exact alookup_append_single_ne _ _ h
  · split
    · split
      · exact alookup_aupdate_ne _ _ (Ne.symm h)
      · exact alookup_append_single_ne _ _ h
    · rfl

theorem detectOne_lookup_self (prev : Snap) (now : Nat) (pends : Pendings) (p : Path)
    (i : FInfo) :
    plookup (detectOne prev now pends p i) p
      = detectResult (plookup pends p) (slookup prev p) i now := by
  simp only [detectOne, detectResult, plookup, pupdate]
  split
  · split
    · rename_i w heq
      rw [alookup_aupdate_self, heq]
      rfl
    · rename_i heq
      exact alookup_append_single_self _ _ heq
  · split
    · split
      · rename_i w heq
        rw [alookup_aupdate_self, heq]
        rfl
      · rename_i heq
        exact alookup_append_single_self _ _ heq
    · rfl

theorem WFKeys_detectOne (prev : Snap) (now : Nat) {pends : Pendings} (q : Path)
    (iq : FInfo) (h : WFKeys pends) : WFKeys (detectOne prev now pends q iq) := by
  simp only [detectOne]
  split
  · split
    · exact WFKeys_aupdate _ _ h
    · rename_i heq
      exact WFKeys_append_single _ h heq
  · split
    · split
      · exact WFKeys_aupdate _ _ h
      · rename_i heq
        exact WFKeys_append_single _ h heq
    · exact h

theorem detectPhase_nil (pends : Pendings) (prev : Snap) (now : Nat) :
    detectPhase pends prev [] now = pends :=
  rfl

theorem detectPhase_cons (pends : Pendings) (prev : Snap) (e : Path × FInfo)
    (next : Snap) (now : Nat) :
    detectPhase pends prev (e :: next) now
      = detectPhase (detectOne prev now pends e.1 e.2) prev next now :=
  rfl

theorem detectPhase_lookup_notmem {p : Path} {next : Snap} (pends : Pendings)
    (prev : Snap) (now : Nat) (hmem : p ∉ next.map Prod.fst) :
    plookup (detectPhase pends prev next now) p = plookup pends p := by
  induction next generalizing pends with
  | nil => rfl
  | cons e next ih =>
      rw [detectPhase_cons]
      have h1 : e.1 ≠ p := by
        intro hc
        exact hmem (by rw [List.map_cons, hc]; exact List.mem_cons_self p _)
      have h2 : p ∉ next.map Prod.fst := by
        intro hc
        exact hmem (by rw [List.map_cons]; exact List.mem_cons_of_mem _ hc)
      rw [ih _ h2, detectOne_lookup_ne _ _ _ _ h1]

theorem detectPhase_lookup_mem {p : Path} {next : Snap} {i : FInfo} (pends : Pendings)
    (prev : Snap) (now : Nat) (hWF : WFKeys next) (hi : slookup next p = some i) :
    plookup (detectPhase pends prev next now) p
      = detectResult (plookup pends p) (slookup prev p) i now := by
  induction next generalizing pends with
  | nil => simp [slookup, alookup_nil] at hi
  | cons e next ih =>
      rw [detectPhase_cons]
      unfold WFKeys at hWF
      rw [List.map_cons, List.nodup_cons] at hWF
      by_cases he : e.1 = p
      · have hie : i = e.2 := by
          rw [slookup, alookup_cons, if_pos he] at hi
          exact (Option.some_inj.mp hi).symm
        have hnot : p ∉ next.map Prod.fst := he ▸ hWF.1
        rw [detectPhase_lookup_notmem _ _ _ hnot]
        subst hie
        subst he
        exact detectOne_lookup_self prev now pends e.1 e.2
      · have hi2 : slookup next p = some i := by
          rw [slookup, alookup_cons, if_neg he] at hi
          exact hi
        rw [ih _ hWF.2 hi2, detectOne_lookup_ne _ _ _ _ he]

theorem WFKeys_detectPhase {pends : Pendings} (prev next : Snap) (now : Nat)
    (h : WFKeys pends) : WFKeys (detectPhase pends prev next now) := by
  induction next generalizing pends with
  | nil => exact h
  | cons e next ih => exact ih (WFKeys_detectOne _ _ _ _ h)

theorem plookup_cons (e : Path × PendingWrite) (s : Pendings) (p : Path) :
    plookup (e :: s) p = if e.1 = p then some e.2 else plookup s p :=
  alookup_cons e s p

theorem slookup_cons (e : Path × FInfo) (s : Snap) (p : Path) :
    slookup (e :: s) p = if e.1 = p then some e.2 else slookup s p :=
  alookup_cons e s p

theorem plookup_eq_none {s : Pendings} {p : Path} :
    plookup s p = none ↔ p ∉ s.map Prod.fst :=
  alookup_eq_none

theorem eventsFor_nil (p : Path) : eventsFor p [] = [] :=
  rfl

theorem eventsFor_cons (p : Path) (ev : Released) (evs : List Released) :
    eventsFor p (ev :: evs)
      = if ev.path = p then ev :: eventsFor p evs else eventsFor p evs := by
  by_cases h : ev.path = p <;> simp [eventsFor, List.filter_cons, h]

theorem flushPendings_cons_none {cfg : WatcherConfig} {next : Snap} {now : Nat}
    {e : Path × PendingWrite} {pends : Pendings} (h : (flushOne cfg next now e).1 = none) :
    flushPendings cfg next now (e :: pends) = flushPendings cfg next now pends := by
  unfold flushPendings
  exact List.filterMap_cons_none h

theorem flushPendings_cons_some {cfg : WatcherConfig} {next : Snap} {now : Nat}
    {e e2 : Path × PendingWrite} {pends : Pendings}
    (h : (flushOne cfg next now e).1 = some e2) :
    flushPendings cfg next now (e :: pends) = e2 :: flushPendings cfg next now pends := by
  unfold flushPendings
  exact List.filterMap_cons_some h

theorem flushEvents_cons_none {cfg : WatcherConfig} {next : Snap} {now : Nat}
    {e : Path × PendingWrite} {pends : Pendings} (h : (flushOne cfg next now e).2 = none) :
    flushEvents cfg next now (e :: pends) = flushEvents cfg next now pends := by
  unfold flushEvents
  exact List.filterMap_cons_none h

theorem flushEvents_cons_some {cfg : WatcherConfig} {next : Snap} {now : Nat}
    {e : Path × PendingWrite} {ev : Released} {pends : Pendings}
    (h : (flushOne cfg next now e).2 = some ev) :
    flushEvents cfg next now (e :: pends) = ev :: flushEvents cfg next now pends := by
  unfold flushEvents
  exact List.filterMap_cons_some h

theorem deleteEvents_cons_present {next : Snap} {e : Path × FInfo} {prev : Snap}
    {now : Nat} (h : ¬((slookup next e.1).isNone = true)) :
    deleteEvents (e :: prev) next now = deleteEvents prev next now := by
  unfold deleteEvents
  exact List.filterMap_cons_none (by rw [if_neg h])

theorem deleteEvents_cons_absent {next : Snap} {e : Path × FInfo} {prev : Snap}
    {now : Nat} (h : (slookup next e.1).isNone = true) :
    deleteEvents (e :: prev) next now
      = ⟨EvType.DELETE, e.1, e.2.size, now, now, true⟩ :: deleteEvents prev next now := by
  unfold deleteEvents
  exact List.filterMap_cons_some (by rw [if_pos h])

theorem flushOne_fst_key (cfg : WatcherConfig) (next : Snap) (now : Nat)
    (e : Path × PendingWrite) {e2 : Path × PendingWrite}
    (h : (flushOne cfg next now e).1 = some e2) : e2.1 = e.1 := by
  simp only [flushOne] at h
  split at h
  · simp at h
  · split at h
    · simp at h
      subst h
      rfl
    · split at h
      · split at h
        · simp at h
          subst h
          rfl
        · simp at h
      · simp at h
        subst h
        rfl

theorem flushOne_snd_path (cfg : WatcherConfig) (next : Snap) (now : Nat)
    (e : Path × PendingWrite) {ev : Released}
    (h : (flushOne cfg next now e).2 = some ev) : ev.path = e.1 := by
  simp only [flushOne] at h
  split at h
  · simp at h
  · split at h
    · simp at h
    · split at h
      · split at h
        · simp at h
        · simp at h
          subst h
          rfl
      · simp at h

theorem flushPendings_keys_sublist (cfg : WatcherConfig) (next : Snap) (now : Nat)
    (pends : Pendings) :
    ((flushPendings cfg next now pends).map Prod.fst).Sublist (pends.map Prod.fst) := by
  induction pends with
  | nil => simp [flushPendings]
  | cons e pends ih =>
      cases hf : (flushOne cfg next now e).1 with
      | none =>
          rw [flushPendings_cons_none hf, List.map_cons]
          exact ih.cons e.1
      | some e2 =>
          rw [flushPendings_cons_some hf, List.map_cons, List.map_cons,
            flushOne_fst_key _ _ _ _ hf]
          exact ih.cons₂ e.1

theorem WFKeys_flushPendings (cfg : WatcherConfig) (next : Snap) (now : Nat)
    {pends : Pendings} (h : WFKeys pends) : WFKeys (flushPendings cfg next now pends) :=
  (flushPendings_keys_sublist cfg next now pends).nodup h

theorem flushPendings_lookup (cfg : WatcherConfig) (next : Snap) (now : Nat)
    {pends : Pendings} (p : Path) (hWF : WFKeys pends) :
    plookup (flushPendings cfg next now pends) p
      = (plookup pends p).bind (fun w => ((flushOne cfg next now (p, w)).1).map Prod.snd) := by
  induction pends with
  | nil => rfl
  | cons e pends ih =>
      obtain ⟨q, w⟩ := e
      unfold WFKeys at hWF
      rw [List.map_cons, List.nodup_cons] at hWF
      rw [plookup_cons]
      by_cases he : q = p
      · subst he
        rw [if_pos rfl, Option.some_bind]
        cases hf : (flushOne cfg next now (q, w)).1 with
        | none =>
            rw [flushPendings_cons_none hf, Option.map_none', plookup_eq_none]
            intro hc
            exact hWF.1 ((flushPendings_keys_sublist cfg next now pends).mem hc)
        | some e2 =>
            have hkey : e2.1 = q := flushOne_fst_key _ _ _ _ hf
            rw [flushPendings_cons_some hf, plookup_cons, if_pos hkey]
            rfl
      · rw [if_neg he]
        cases hf : (flushOne cfg next now (q, w)).1 with
        | none =>
            rw [flushPendings_cons_none hf]
            exact ih hWF.2
        | some e2 =>
            have hkey : ¬(e2.1 = p) := by
              rw [flushOne_fst_key _ _ _ _ hf]
              exact he
            rw [flushPendings_cons_some hf, plookup_cons, if_neg hkey]
            exact ih hWF.2

theorem eventsFor_flushEvents_notmem (cfg : WatcherConfig) (next : Snap) (now : Nat)
    {pends : Pendings} {p : Path} (h : p ∉ pends.map Prod.fst) :
    eventsFor p (flushEvents cfg next now pends) = [] := by
  induction pends with
  | nil => rfl
  | cons e pends ih =>
      rw [List.map_cons, List.mem_cons, not_or] at h
      cases hf : (flushOne cfg next now e).2 with
      | none =>
          rw [flushEvents_cons_none hf]
          exact ih h.2
      | some ev =>
          have hne : ¬(ev.path = p) := by
            rw [flushOne_snd_path _ _ _ _ hf]
            exact fun hc => h.1 hc.symm
          rw [flushEvents_cons_some hf, eventsFor_cons, if_neg hne]
          exact ih h.2

theorem eventsFor_flushEvents (cfg : WatcherConfig) (next : Snap) (now : Nat)
    {pends : Pendings} (p : Path) (hWF : WFKeys pends) :
    eventsFor p (flushEvents cfg next now pends)
      = ((plookup pends p).bind (fun w => (flushOne cfg next now (p, w)).2)).toList := by
  induction pends with
  | nil => rfl
  | cons e pends ih =>
      obtain ⟨q, w⟩ := e
      unfold WFKeys at hWF
      rw [List.map_cons, List.nodup_cons] at hWF
      rw [plookup_cons]
      by_cases he : q = p
      · subst he
        rw [if_pos rfl, Option.some_bind]
        cases hf : (flushOne cfg next now (q, w)).2 with
        | none =>
            rw [flushEvents_cons_none hf]
            exact eventsFor_flushEvents_notmem cfg next now hWF.1
        | some ev =>
            have hev : ev.path = q := flushOne_snd_path _ _ _ _ hf
            rw [flushEvents_cons_some hf, eventsFor_cons, if_pos hev,
              eventsFor_flushEvents_notmem cfg next now hWF.1]
            rfl
      · rw [if_neg he]
        cases hf : (flushOne cfg next now (q, w)).2 with
        | none =>
            rw [flushEvents_cons_none hf]
            exact ih hWF.2
        | some ev =>
            have hne : ¬(ev.path = p) := by
              rw [flushOne_snd_path _ _ _ _ hf]
              exact he
            rw [flushEvents_cons_some hf, eventsFor_cons, if_neg hne]
            exact ih hWF.2

theorem eventsFor_deleteEvents_present (prev : Snap) (next : Snap) (now : Nat)
    {p : Path} {c : FInfo} (h : slookup next p = some c) :
    eventsFor p (deleteEvents prev next now) = [] := by
  induction prev with
  | nil => rfl
  | cons e prev ih =>
      by_cases he : e.1 = p
      · rw [deleteEvents_cons_present (by rw [he, h]; simp)]
        exact ih
      · by_cases hn : (slookup next e.1).isNone = true
        · rw [deleteEvents_cons_absent hn, eventsFor_cons, if_neg he]
          exact ih
        · rw [deleteEvents_cons_present hn]
          exact ih

theorem eventsFor_deleteEvents_notmem (prev : Snap) (next : Snap) (now : Nat)
    {p : Path} (h : p ∉ prev.map Prod.fst) :
    eventsFor p (deleteEvents prev next now) = [] := by
  induction prev with
  | nil => rfl
  | cons e prev ih =>
      rw [List.map_cons, List.mem_cons, not_or] at h
      have he : ¬(e.1 = p) := fun hc => h.1 hc.symm
      by_cases hn : (slookup next e.1).isNone = true
      · rw [deleteEvents_cons_absent hn, eventsFor_cons, if_neg he]
        exact ih h.2
      · rw [deleteEvents_cons_present hn]
        exact ih h.2

theorem eventsFor_deleteEvents_absent (prev : Snap) (next : Snap) (now : Nat)
    {p : Path} {i : FInfo} (hWF : WFKeys prev) (hp : slookup prev p = some i)
    (hn : slookup next p = none) :
    eventsFor p (deleteEvents prev next now)
      = [⟨EvType.DELETE, p, i.size, now, now, true⟩] := by
  induction prev with
  | nil => simp [slookup, alookup_nil] at hp
  | cons e prev ih =>
      unfold WFKeys at hWF
      rw [List.map_cons, List.nodup_cons] at hWF
      by_cases he : e.1 = p
      · have hie : i = e.2 := by
          rw [slookup_cons, if_pos he] at hp
          exact (Option.some_inj.mp hp).symm
        rw [deleteEvents_cons_absent (by rw [he, hn]; rfl), eventsFor_cons,
          if_pos he, eventsFor_deleteEvents_notmem _ _ _ (he ▸ hWF.1), he, hie]
      · have hp2 : slookup prev p = some i := by
          rw [slookup_cons, if_neg he] at hp
          exact hp
        by_cases hnn : (slookup next e.1).isNone = true
        · rw [deleteEvents_cons_absent hnn, eventsFor_cons, if_neg he]
          exact ih hWF.2 hp2
        · rw [deleteEvents_cons_present hnn]
          exact ih hWF.2 hp2

theorem pollTick_events (cfg : WatcherConfig) (st : EngineState) (now : Nat)
    (next : Snap) (p : Path) :
    eventsFor p (pollTick cfg st now next).2
      = eventsFor p (deleteEvents st.snapshot next now)
        ++ eventsFor p (flushEvents cfg next now
              (detectPhase st.pendings st.snapshot next now)) := by
  simp [pollTick, eventsFor, List.filter_append]

theorem pollTick_state (cfg : WatcherConfig) (st : EngineState) (now : Nat)
    (next : Snap) :
    (pollTick cfg st now next).1
      = ⟨next, flushPendings cfg next now
          (detectPhase st.pendings st.snapshot next now)⟩ :=
  rfl

theorem flushOne_vanish {cfg : WatcherConfig} {next : Snap} {now : Nat}
    (e : Path × PendingWrite) (hcur : slookup next e.1 = none) :
    flushOne cfg next now e = (none, none) := by
  simp only [flushOne]
  split
  · rfl
  · rename_i cur2 heq
    rw [hcur] at heq
    exact absurd heq (by simp)

theorem flushOne_emit {cfg : WatcherConfig} {next : Snap} {now : Nat}
    (e : Path × PendingWrite) {cur : FInfo} (hcur : slookup next e.1 = some cur)
    (hm : cur.mtimeMs = e.2.lastMtimeMs) (hs : cur.size = e.2.lastSize)
    (hc : stableCond cfg e.2 now) :
    flushOne cfg next now e
      = (none, some ⟨evTypeOfKind e.2.kind, e.1, cur.size, cur.mtimeMs, now, false⟩) := by
  obtain ⟨hq, hh⟩ := hc
  simp only [flushOne]
  split
  · rename_i heq
    rw [hcur] at heq
    exact absurd heq (by simp)
  · rename_i cur2 heq
    rw [hcur] at heq
    obtain rfl : cur2 = cur := (Option.some_inj.mp heq).symm
    rw [if_neg (by push_neg; exact ⟨hm, hs⟩), if_pos hq, if_neg hh]

theorem flushOne_keep {cfg : WatcherConfig} {next : Snap} {now : Nat}
    (e : Path × PendingWrite) {cur : FInfo} (hcur : slookup next e.1 = some cur)
    (hm : cur.mtimeMs = e.2.lastMtimeMs) (hs : cur.size = e.2.lastSize)
    (hc : ¬ stableCond cfg e.2 now) :
    flushOne cfg next now e = (some e, none) := by
  simp only [flushOne]
  split
  · rename_i heq
    rw [hcur] at heq
    exact absurd heq (by simp)
  · rename_i cur2 heq
    rw [hcur] at heq
    obtain rfl : cur2 = cur := (Option.some_inj.mp heq).symm
    rw [if_neg (by push_neg; exact ⟨hm, hs⟩)]
    by_cases hq : cfg.awaitWriteFinishMs ≤ now - e.2.lastChangeAt
    · rw [if_pos hq]
      have hh : e.2.kind = PKind.CREATE ∧ e.2.lastSize = 0 ∧
          now - e.2.firstSeenAt < cfg.minCreateHoldMsForEmptyFile := by
        by_contra hcon
        exact hc ⟨hq, hcon⟩
      rw [if_pos hh]
    · rw [if_neg hq]

theorem detectResult_stable (old : Option PendingWrite) (v : FInfo) (now : Nat) :
    detectResult old (some v) v now = old := by
  simp [detectResult]

theorem eventsFor_append (p : Path) (a b : List Released) :
    eventsFor p (a ++ b) = eventsFor p a ++ eventsFor p b := by
  simp [eventsFor, List.filter_append]

theorem pollRun_nil (cfg : WatcherConfig) (st : EngineState) :
    pollRun cfg st [] = (st, []) :=
  rfl

theorem pollRun_cons (cfg : WatcherConfig) (st : EngineState) (o : TickObs)
    (rest : List TickObs) :
    pollRun cfg st (o :: rest)
      = ((pollRun cfg (pollTick cfg st o.now o.next).1 rest).1,
         (pollTick cfg st o.now o.next).2
           ++ (pollRun cfg (pollTick cfg st o.now o.next).1 rest).2) :=
  rfl

theorem pollRun_inert (cfg : WatcherConfig) {p : Path} {v : FInfo} (obs : List TickObs)
    (st : EngineState) (hWFp : WFKeys st.pendings)
    (hsnap : slookup st.snapshot p = some v)
    (hpend : plookup st.pendings p = none)
    (hobs : ∀ o ∈ obs, slookup o.next p = some v ∧ WFKeys o.next) :
    eventsFor p (pollRun cfg st obs).2 = [] := by
  induction obs generalizing st with
  | nil => rfl
  | cons o rest ih =>
      have ho := hobs o (List.mem_cons_self o rest)
      have hrest : ∀ o2 ∈ rest, slookup o2.next p = some v ∧ WFKeys o2.next :=
        fun o2 h2 => hobs o2 (List.mem_cons_of_mem o h2)
      have hWF1 : WFKeys (detectPhase st.pendings st.snapshot o.next o.now) :=
        WFKeys_detectPhase _ _ _ hWFp
      have hd : plookup (detectPhase st.pendings st.snapshot o.next o.now) p = none := by
        rw [detectPhase_lookup_mem _ _ _ ho.2 ho.1, hsnap, detectResult_stable, hpend]
      rw [pollRun_cons, eventsFor_append, pollTick_events,
        eventsFor_deleteEvents_present _ _ _ ho.1,
        eventsFor_flushEvents _ _ _ _ hWF1, hd, pollTick_state]
      simp only [Option.none_bind, List.nil_append]
      have hp1 : plookup (flushPendings cfg o.next o.now
          (detectPhase st.pendings st.snapshot o.next o.now)) p = none := by
        rw [flushPendings_lookup _ _ _ _ hWF1, hd, Option.none_bind]
      have hW1 : WFKeys (flushPendings cfg o.next o.now
          (detectPhase st.pendings st.snapshot o.next o.now)) :=
        WFKeys_flushPendings _ _ _ hWF1
      rw [ih ⟨o.next, flushPendings cfg o.next o.now (detectPhase st.pendings st.snapshot o.next o.now)⟩ hW1 ho.1 hp1 hrest]
      rfl

theorem pollRun_pending_stable (cfg : WatcherConfig) {p : Path} {v : FInfo}
    {w : PendingWrite} (obs : List TickObs) (st : EngineState)
    (hWFp : WFKeys st.pendings)
    (hsnap : slookup st.snapshot p = some v)
    (hpend : plookup st.pendings p = some w)
    (hm : w.lastMtimeMs = v.mtimeMs) (hs : w.lastSize = v.size)
    (hobs : ∀ o ∈ obs, slookup o.next p = some v ∧ WFKeys o.next)
    (hex : ∃ o ∈ obs, stableCond cfg w o.now) :
    ∃ t, eventsFor p (pollRun cfg st obs).2
        = [⟨evTypeOfKind w.kind, p, v.size, v.mtimeMs, t, false⟩]
      ∧ stableCond cfg w t := by
  induction obs generalizing st with
  | nil =>
      obtain ⟨o, ho, _⟩ := hex
      exact absurd ho (List.not_mem_nil o)
  | cons o rest ih =>
      have ho := hobs o (List.mem_cons_self o rest)
      have hrest : ∀ o2 ∈ rest, slookup o2.next p = some v ∧ WFKeys o2.next :=
        fun o2 h2 => hobs o2 (List.mem_cons_of_mem o h2)
      have hWF1 : WFKeys (detectPhase st.pendings st.snapshot o.next o.now) :=
        WFKeys_detectPhase _ _ _ hWFp
      have hd : plookup (detectPhase st.pendings st.snapshot o.next o.now) p = some w := by
        rw [detectPhase_lookup_mem _ _ _ ho.2 ho.1, hsnap, detectResult_stable, hpend]
      have hW1 : WFKeys (flushPendings cfg o.next o.now
          (detectPhase st.pendings st.snapshot o.next o.now)) :=
        WFKeys_flushPendings _ _ _ hWF1
      rw [pollRun_cons, eventsFor_append, pollTick_events,
        eventsFor_deleteEvents_present _ _ _ ho.1,
        eventsFor_flushEvents _ _ _ _ hWF1, hd, pollTick_state]
      simp only [Option.some_bind, List.nil_append]
      by_cases hc : stableCond cfg w o.now
      · have hflush := flushOne_emit (p, w) ho.1 hm.symm hs.symm hc
        rw [hflush]
        have hp1 : plookup (flushPendings cfg o.next o.now
            (detectPhase st.pendings st.snapshot o.next o.now)) p = none := by
          rw [flushPendings_lookup _ _ _ _ hWF1, hd, Option.some_bind, hflush]
          rfl
        rw [pollRun_inert cfg rest ⟨o.next, flushPendings cfg o.next o.now (detectPhase st.pendings st.snapshot o.next o.now)⟩ hW1 ho.1 hp1 hrest]
        exact ⟨o.now, rfl, hc⟩
      · have hflush := flushOne_keep (p, w) ho.1 hm.symm hs.symm hc
        rw [hflush]
        have hp1 : plookup (flushPendings cfg o.next o.now
            (detectPhase st.pendings st.snapshot o.next o.now)) p = some w := by
          rw [flushPendings_lookup _ _ _ _ hWF1, hd, Option.some_bind, hflush]
          rfl
        have hex2 : ∃ o2 ∈ rest, stableCond cfg w o2.now := by
          obtain ⟨o2, ho2, hc2⟩ := hex
          rcases List.mem_cons.mp ho2 with rfl | hmem
          · exact absurd hc2 hc
          · exact ⟨o2, hmem, hc2⟩
        simp only [Option.toList_none, List.nil_append]
        exact ih ⟨o.next, flushPendings cfg o.next o.now (detectPhase st.pendings st.snapshot o.next o.now)⟩ hW1 ho.1 hp1 hrest hex2

theorem detectResult_new (i : FInfo) (now : Nat) :
    detectResult none none i now = some ⟨PKind.CREATE, i.mtimeMs, i.size, now, now⟩ :=
  rfl

theorem detectResult_changed {pv i : FInfo} (w : PendingWrite) (now : Nat)
    (hne : pv.mtimeMs ≠ i.mtimeMs ∨ pv.size ≠ i.size) :
    detectResult (some w) (some pv) i now = some (updateIfChanged w i now) := by
  simp only [detectResult, if_pos hne]

theorem updateIfChanged_of_ne (w : PendingWrite) (i : FInfo) (now : Nat)
    (hne : w.lastMtimeMs ≠ i.mtimeMs ∨ w.lastSize ≠ i.size) :
    updateIfChanged w i now = ⟨w.kind, i.mtimeMs, i.size, now, w.firstSeenAt⟩ := by
  rw [updateIfChanged, if_pos hne]

theorem pollTick_keep_step (cfg : WatcherConfig) (st : EngineState) (o : TickObs)
    {p : Path} {v : FInfo} {w : PendingWrite}
    (hWFp : WFKeys st.pendings) (hWFn : WFKeys o.next)
    (hnext : slookup o.next p = some v)
    (hres : detectResult (plookup st.pendings p) (slookup st.snapshot p) v o.now = some w)
    (hm : w.lastMtimeMs = v.mtimeMs) (hs : w.lastSize = v.size)
    (hnc : ¬ stableCond cfg w o.now)
    (hdel : eventsFor p (deleteEvents st.snapshot o.next o.now) = []) :
    eventsFor p (pollTick cfg st o.now o.next).2 = []
    ∧ (pollTick cfg st o.now o.next).1.snapshot = o.next
    ∧ plookup (pollTick cfg st o.now o.next).1.pendings p = some w
    ∧ WFKeys (pollTick cfg st o.now o.next).1.pendings := by
  have hWFd : WFKeys (detectPhase st.pendings st.snapshot o.next o.now) :=
    WFKeys_detectPhase st.snapshot o.next o.now hWFp
  have hd : plookup (detectPhase st.pendings st.snapshot o.next o.now) p = some w := by
    rw [detectPhase_lookup_mem _ _ _ hWFn hnext, hres]
  have hk := flushOne_keep (p, w) hnext hm.symm hs.symm hnc
  refine ⟨?_, rfl, ?_, ?_⟩
  · rw [pollTick_events, hdel, eventsFor_flushEvents _ _ _ _ hWFd, hd, Option.some_bind,
      hk]
    rfl
  · show plookup (flushPendings cfg o.next o.now
        (detectPhase st.pendings st.snapshot o.next o.now)) p = some w
    rw [flushPendings_lookup _ _ _ _ hWFd, hd, Option.some_bind, hk]
    rfl
  · show WFKeys (flushPendings cfg o.next o.now
        (detectPhase st.pendings st.snapshot o.next o.now))
    exact WFKeys_flushPendings _ _ _ hWFd

/-- C1: a file that appears in the snapshot at tick `o0` with data
`(m1, S1)` and is observed rewritten at the very next tick `o1` with data
`(m2, S2)`, with no further observable modifications afterwards, causes the
poll loop to release exactly one event for that path over the whole run
(never two), the event carries the final size `S2`, and its release time is
at least `o1.now + awaitWriteFinishMs` — the quiet window after the last
observed change.  The run is assumed long enough for the quiet window (and,
for an empty file, the empty-create hold) to elapse, the quiet window is
positive (source default 1000), and all JS-map snapshots have unique keys. -/
theorem C1_stabilization (cfg : WatcherConfig) (st : EngineState) (p : Path)
    (m1 S1 m2 S2 : Nat) (o0 o1 : TickObs) (rest : List TickObs)
    (hq : 0 < cfg.awaitWriteFinishMs)
    (hWFp : WFKeys st.pendings)
    (hsnap : slookup st.snapshot p = none)
    (hpend : plookup st.pendings p = none)
    (h0 : slookup o0.next p = some ⟨m1, S1⟩)
    (hWF0 : WFKeys o0.next)
    (h1 : ∀ o ∈ o1 :: rest, slookup o.next p = some ⟨m2, S2⟩ ∧ WFKeys o.next)
    (hne : m1 ≠ m2 ∨ S1 ≠ S2)
    (hlong : ∃ o ∈ rest, cfg.awaitWriteFinishMs ≤ o.now - o1.now ∧
        (S2 = 0 → cfg.minCreateHoldMsForEmptyFile ≤ o.now - o0.now)) :
    ∃ t, eventsFor p (pollRun cfg st (o0 :: o1 :: rest)).2
          = [⟨EvType.CREATE, p, S2, m2, t, false⟩]
      ∧ o1.now + cfg.awaitWriteFinishMs ≤ t := by
  have ho1 := h1 o1 (List.mem_cons_self o1 rest)
  have h1rest : ∀ o ∈ rest, slookup o.next p = some ⟨m2, S2⟩ ∧ WFKeys o.next :=
    fun o ho => h1 o (List.mem_cons_of_mem o1 ho)
  -- tick o0: the path enters the pending table as a fresh CREATE and is kept.
  have step0 := pollTick_keep_step cfg st o0 hWFp hWF0 h0
    (w := ⟨PKind.CREATE, m1, S1, o0.now, o0.now⟩)
    (by rw [hsnap, hpend]; rfl) rfl rfl
    (fun hc => by
      have h1c : cfg.awaitWriteFinishMs ≤ o0.now - o0.now := hc.1
      omega)
    (eventsFor_deleteEvents_notmem _ _ _ (alookup_eq_none.mp hsnap))
  obtain ⟨hev0, hsn1, hpd1, hWF1⟩ := step0
  -- tick o1: the rewrite is observed, the pending entry is refreshed and kept.
  have step1 := pollTick_keep_step cfg (pollTick cfg st o0.now o0.next).1 o1
    hWF1 ho1.2 ho1.1
    (w := ⟨PKind.CREATE, m2, S2, o1.now, o0.now⟩)
    (by
      rw [hpd1, hsn1, h0, detectResult_changed _ _ (by simpa using hne),
        updateIfChanged_of_ne _ _ _ (by simpa using hne)])
    rfl rfl
    (fun hc => by
      have h1c : cfg.awaitWriteFinishMs ≤ o1.now - o1.now := hc.1
      omega)
    (eventsFor_deleteEvents_present _ _ _ ho1.1)
  obtain ⟨hev1, hsn2, hpd2, hWF2⟩ := step1
  -- remaining ticks: the entry is stable and releases exactly once.
  have hrest := pollRun_pending_stable cfg rest
    (pollTick cfg (pollTick cfg st o0.now o0.next).1 o1.now o1.next).1
    hWF2 (by rw [hsn2]; exact ho1.1) hpd2 rfl rfl h1rest
    (by
      obtain ⟨o, ho, hoq, hoh⟩ := hlong
      refine ⟨o, ho, hoq, ?_⟩
      rintro ⟨-, hS0, hlt⟩
      exact absurd hlt (not_lt.mpr (hoh hS0)))
  obtain ⟨t, hevr, hstab⟩ := hrest
  refine ⟨t, ?_, ?_⟩
  · rw [pollRun_cons, eventsFor_append, hev0, pollRun_cons, eventsFor_append, hev1,
      hevr]
    rfl
  · have h1t : cfg.awaitWriteFinishMs ≤ t - o1.now := hstab.1
    omega

/-- Witness for C1 at a concrete run: a file appears at time 0 with data
`(10, 3)`, is rewritten at 750 to `(20, 7)` and is stable afterwards; the
single released event carries size 7 and is released at 1750 ≥ 750 + 1000. -/
theorem C1_stabilization_witness :
    ∃ t, eventsFor "a.md" (pollRun {} ⟨[], []⟩
          [⟨0, [("a.md", ⟨10, 3⟩)]⟩, ⟨750, [("a.md", ⟨20, 7⟩)]⟩,
           ⟨1750, [("a.md", ⟨20, 7⟩)]⟩]).2
          = [⟨EvType.CREATE, "a.md", 7, 20, t, false⟩]
      ∧ 750 + (1000 : Nat) ≤ t := by
  exact C1_stabilization {} ⟨[], []⟩ "a.md" 10 3 20 7
    ⟨0, [("a.md", ⟨10, 3⟩)]⟩ ⟨750, [("a.md", ⟨20, 7⟩)]⟩ [⟨1750, [("a.md", ⟨20, 7⟩)]⟩]
    (by decide) (by decide) (by decide) (by decide) (by decide) (by decide)
    (by decide) (by decide) (by decide)

theorem deleteEvents_etype {prev next : Snap} {now : Nat} {ev : Released}
    (h : ev ∈ deleteEvents prev next now) : ev.etype = EvType.DELETE := by
  rw [deleteEvents, List.mem_filterMap] at h
  obtain ⟨a, _, ha⟩ := h
  split at ha
  · cases Option.some_inj.mp ha
    rfl
  · exact absurd ha (by simp)

theorem detectResult_some_isSome (w : PendingWrite) (prevI : Option FInfo) (i : FInfo)
    (now : Nat) : (detectResult (some w) prevI i now).isSome = true := by
  simp only [detectResult]
  split
  · simp
  · split
    · simp
    · simp

theorem detectResult_some_emptyKeeps {w w2 : PendingWrite} {prevI : Option FInfo}
    {i : FInfo} {now : Nat} (hd : detectResult (some w) prevI i now = some w2)
    (hk : w.kind = PKind.CREATE) (hsz : w.lastSize = 0) (hisz : i.size = 0) :
    w2.kind = PKind.CREATE ∧ w2.lastSize = 0 ∧ w2.firstSeenAt = w.firstSeenAt := by
  simp only [detectResult] at hd
  split at hd
  · obtain rfl : upgradeCreate w i now = w2 := Option.some_inj.mp hd
    simp only [upgradeCreate]
    split
    · exact ⟨rfl, hisz, rfl⟩
    · exact ⟨rfl, hsz, rfl⟩
  · split at hd
    · obtain rfl : updateIfChanged w i now = w2 := Option.some_inj.mp hd
      simp only [updateIfChanged]
      split
      · exact ⟨hk, hisz, rfl⟩
      · exact ⟨hk, hsz, rfl⟩
    · obtain rfl : w = w2 := Option.some_inj.mp hd
      exact ⟨hk, hsz, rfl⟩

theorem flushOne_snd_none_emptyHold (cfg : WatcherConfig) (next : Snap) (now : Nat)
    (e : Path × PendingWrite) (hk : e.2.kind = PKind.CREATE) (hsz : e.2.lastSize = 0)
    (hh : now - e.2.firstSeenAt < cfg.minCreateHoldMsForEmptyFile) :
    (flushOne cfg next now e).2 = none := by
  simp only [flushOne]
  split
  · rfl
  · split
    · rfl
    · split
      · split
        · rfl
        · rename_i hcon
          exact absurd ⟨hk, hsz, hh⟩ hcon
      · rfl

/-- C2: (a) while a pending CREATE has last observed size 0 and the
empty-file hold (`minCreateHoldMsForEmptyFile`, source default 15000) has not
yet elapsed since the path was first observed, a poll tick in which the path
is still absent-or-empty releases no CREATE (and no CHANGED) event for it —
at most a DELETE can be released — even if the quiet window has long
elapsed; (b) once the pending CREATE has become non-zero in size, ordinary
quiet-window stabilization applies: a tick in which the path is unchanged
and the quiet window has elapsed since the last observed change releases the
CREATE event, with no condition on the hold. -/
theorem C2_emptyCreateHold :
    (∀ (cfg : WatcherConfig) (st : EngineState) (p : Path) (w : PendingWrite)
        (next : Snap) (now : Nat), WFKeys st.pendings → WFKeys next →
        plookup st.pendings p = some w → w.kind = PKind.CREATE → w.lastSize = 0 →
        now - w.firstSeenAt < cfg.minCreateHoldMsForEmptyFile →
        (∀ c, slookup next p = some c → c.size = 0) →
        ∀ ev ∈ eventsFor p (pollTick cfg st now next).2, ev.etype = EvType.DELETE)
    ∧ (∀ (cfg : WatcherConfig) (st : EngineState) (p : Path) (w : PendingWrite)
        (next : Snap) (now : Nat) (c : FInfo), WFKeys st.pendings → WFKeys next →
        slookup st.snapshot p = some c → slookup next p = some c →
        plookup st.pendings p = some w → w.kind = PKind.CREATE →
        w.lastMtimeMs = c.mtimeMs → w.lastSize = c.size → w.lastSize ≠ 0 →
        cfg.awaitWriteFinishMs ≤ now - w.lastChangeAt →
        eventsFor p (pollTick cfg st now next).2
          = [⟨EvType.CREATE, p, c.size, c.mtimeMs, now, false⟩]) := by
  constructor
  · intro cfg st p w next now hWFp hWFn hpend hk hsz hh hempty ev hev
    rw [pollTick_events] at hev
    have hWFd : WFKeys (detectPhase st.pendings st.snapshot next now) :=
      WFKeys_detectPhase st.snapshot next now hWFp
    rcases List.mem_append.mp hev with hmem | hmem
    · exact deleteEvents_etype (List.mem_filter.mp hmem).1
    · exfalso
      cases hnxt : slookup next p with
      | none =>
          have hd : plookup (detectPhase st.pendings st.snapshot next now) p = some w := by
            rw [detectPhase_lookup_notmem _ _ _ (alookup_eq_none.mp hnxt), hpend]
          rw [eventsFor_flushEvents _ _ _ _ hWFd, hd, Option.some_bind,
            flushOne_vanish (p, w) hnxt] at hmem
          exact absurd hmem (by simp)
      | some c =>
          have hc0 : c.size = 0 := hempty c hnxt
          cases hd2 : detectResult (some w) (slookup st.snapshot p) c now with
          | none =>
              have := detectResult_some_isSome w (slookup st.snapshot p) c now
              rw [hd2] at this
              exact absurd this (by simp)
          | some w2 =>
              obtain ⟨hk2, hsz2, hfs2⟩ := detectResult_some_emptyKeeps hd2 hk hsz hc0
              have hd : plookup (detectPhase st.pendings st.snapshot next now) p
                  = some w2 := by
                rw [detectPhase_lookup_mem _ _ _ hWFn hnxt, hpend, hd2]
              rw [eventsFor_flushEvents _ _ _ _ hWFd, hd, Option.some_bind,
                flushOne_snd_none_emptyHold cfg next now (p, w2) hk2 hsz2
                  (by rw [show (p, w2).2.firstSeenAt = w.firstSeenAt from hfs2]
                      exact hh)] at hmem
              exact absurd hmem (by simp)
  · intro cfg st p w next now c hWFp hWFn hprev hnxt hpend hk hm hs hs0 hquiet
    have hWFd : WFKeys (detectPhase st.pendings st.snapshot next now) :=
      WFKeys_detectPhase st.snapshot next now hWFp
    have hd : plookup (detectPhase st.pendings st.snapshot next now) p = some w := by
      rw [detectPhase_lookup_mem _ _ _ hWFn hnxt, hprev, detectResult_stable, hpend]
    have hemit := flushOne_emit (p, w) hnxt hm.symm hs.symm
      ⟨hquiet, fun hcon => hs0 hcon.2.1⟩
    rw [pollTick_events, eventsFor_deleteEvents_present _ _ _ hnxt,
      eventsFor_flushEvents _ _ _ _ hWFd, hd, Option.some_bind, hemit, hk]
    rfl

/-- Witness for C2: (a) a tick at time 2000 over an empty pending CREATE
first seen at 0 (quiet window elapsed, hold not elapsed) releases nothing,
so every released event for the path is vacuously a DELETE; (b) the same
tick over a pending CREATE of size 5 releases exactly the CREATE event. -/
theorem C2_emptyCreateHold_witness :
    (∀ ev ∈ eventsFor "e.md" (pollTick {}
        ⟨[("e.md", ⟨10, 0⟩)], [("e.md", ⟨PKind.CREATE, 10, 0, 0, 0⟩)]⟩
        2000 [("e.md", ⟨10, 0⟩)]).2, ev.etype = EvType.DELETE)
    ∧ eventsFor "f.md" (pollTick {}
        ⟨[("f.md", ⟨10, 5⟩)], [("f.md", ⟨PKind.CREATE, 10, 5, 0, 0⟩)]⟩
        2000 [("f.md", ⟨10, 5⟩)]).2
        = [⟨EvType.CREATE, "f.md", 5, 10, 2000, false⟩] :=
  ⟨C2_emptyCreateHold.1 {} ⟨[("e.md", ⟨10, 0⟩)], [("e.md", ⟨PKind.CREATE, 10, 0, 0, 0⟩)]⟩
      "e.md" ⟨PKind.CREATE, 10, 0, 0, 0⟩ [("e.md", ⟨10, 0⟩)] 2000
      (by decide) (by decide) (by decide) (by decide) (by decide) (by decide)
      (by intro c hc; rw [← Option.some_inj.mp hc]),
   C2_emptyCreateHold.2 {} ⟨[("f.md", ⟨10, 5⟩)], [("f.md", ⟨PKind.CREATE, 10, 5, 0, 0⟩)]⟩
      "f.md" ⟨PKind.CREATE, 10, 5, 0, 0⟩ [("f.md", ⟨10, 5⟩)] 2000 ⟨10, 5⟩
      (by decide) (by decide) (by decide) (by decide) (by decide) (by decide)
      (by decide) (by decide) (by decide) (by decide)⟩

/-- C7 counterexample: a file that appears in the snapshot at tick 0 (data
`(5, 5)`, entering the pending table) and is gone again at tick 750 — i.e.
it vanishes before its quiet window (default 1000) elapses — does NOT
produce "no event at all": the deletion detector releases one immediate
DELETE event for it, because the path was present in the previous snapshot.
The claim "no event of any type is emitted for that pending change" is
therefore false on this run. -/
theorem C7_counterexample :
    eventsFor "n.md" (pollRun {} ⟨[], []⟩ [⟨0, [("n.md", ⟨5, 5⟩)]⟩, ⟨750, []⟩]).2
      = [⟨EvType.DELETE, "n.md", 5, 750, 750, true⟩]
    ∧ eventsFor "n.md" (pollRun {} ⟨[], []⟩ [⟨0, [("n.md", ⟨5, 5⟩)]⟩, ⟨750, []⟩]).2
      ≠ [] := by
  constructor
  · decide
  · decide

/-- C7 amended: when a path with a live PendingWrite is absent from the new
snapshot, the PendingWrite is discarded and the stabilizer releases no
CREATE or CHANGED event for it; but since the path was present in the
previous snapshot, the deletion detector releases exactly one immediate
DELETE event for the path on the tick it disappears — a short-lived created
file yields a lone DELETE, not silence. -/
theorem C7_vanishBeforeStable (cfg : WatcherConfig) (st : EngineState) (p : Path)
    (w : PendingWrite) (i : FInfo) (next : Snap) (now : Nat)
    (hWFp : WFKeys st.pendings) (hWFprev : WFKeys st.snapshot)
    (hpend : plookup st.pendings p = some w)
    (hprev : slookup st.snapshot p = some i)
    (hgone : slookup next p = none) :
    plookup (pollTick cfg st now next).1.pendings p = none
    ∧ eventsFor p (pollTick cfg st now next).2
        = [⟨EvType.DELETE, p, i.size, now, now, true⟩] := by
  have hWFd : WFKeys (detectPhase st.pendings st.snapshot next now) :=
    WFKeys_detectPhase st.snapshot next now hWFp
  have hd : plookup (detectPhase st.pendings st.snapshot next now) p = some w := by
    rw [detectPhase_lookup_notmem _ _ _ (alookup_eq_none.mp hgone), hpend]
  constructor
  · show plookup (flushPendings cfg next now
        (detectPhase st.pendings st.snapshot next now)) p = none
    rw [flushPendings_lookup _ _ _ _ hWFd, hd, Option.some_bind,
      flushOne_vanish (p, w) hgone]
    rfl
  · rw [pollTick_events, eventsFor_deleteEvents_absent _ _ _ hWFprev hprev hgone,
      eventsFor_flushEvents _ _ _ _ hWFd, hd, Option.some_bind,
      flushOne_vanish (p, w) hgone]
    rfl

/-- Witness for the amended C7 at a concrete state: the pending entry is
dropped and exactly the DELETE event is released. -/
theorem C7_vanishBeforeStable_witness :
    plookup (pollTick {} ⟨[("n.md", ⟨5, 5⟩)], [("n.md", ⟨PKind.CREATE, 5, 5, 0, 0⟩)]⟩
        750 []).1.pendings "n.md" = none
    ∧ eventsFor "n.md" (pollTick {}
        ⟨[("n.md", ⟨5, 5⟩)], [("n.md", ⟨PKind.CREATE, 5, 5, 0, 0⟩)]⟩ 750 []).2
        = [⟨EvType.DELETE, "n.md", 5, 750, 750, true⟩] :=
  C7_vanishBeforeStable {} ⟨[("n.md", ⟨5, 5⟩)], [("n.md", ⟨PKind.CREATE, 5, 5, 0, 0⟩)]⟩
    "n.md" ⟨PKind.CREATE, 5, 5, 0, 0⟩ ⟨5, 5⟩ [] 750
    (by decide) (by decide) (by decide) (by decide) (by decide)

/-- C8: a failed snapshot enumeration (`_scanSnapshot` throwing inside the
tick's `try`) is swallowed: the whole engine state — in particular the
previous Snapshot — is retained unchanged and no event is released; the loop
then simply proceeds with the next tick; and on every tick, successful or
not, the snapshot is replaced all-or-nothing: afterwards it is either
exactly the previous snapshot or exactly the newly scanned one. -/
theorem C8_cycleFailure :
    (∀ (cfg : WatcherConfig) (st : EngineState) (now : Nat),
        pollTickE cfg st ⟨now, none⟩ = (st, []))
    ∧ (∀ (cfg : WatcherConfig) (st : EngineState) (now : Nat) (rest : List TickObsE),
        pollRunE cfg st (⟨now, none⟩ :: rest) = pollRunE cfg st rest)
    ∧ (∀ (cfg : WatcherConfig) (st : EngineState) (o : TickObsE),
        (pollTickE cfg st o).1.snapshot = st.snapshot
        ∨ ∃ next, o.scan = some next ∧ (pollTickE cfg st o).1.snapshot = next) := by
  refine ⟨fun cfg st now => rfl, fun cfg st now rest => ?_, fun cfg st o => ?_⟩
  · simp [pollRunE, pollTickE]
  · obtain ⟨now, scan⟩ := o
    cases scan with
    | none => exact Or.inl rfl
    | some next => exact Or.inr ⟨next, rfl, rfl⟩

/-- C9: with unconfigured settings or suspended file watching, `appendQueue`
returns immediately: the whole batch is discarded and the FIFO buffer is
unchanged (hence nothing is ever dispatched and no WaitHandle arises from
the batch). -/
theorem C9_appendQueueGuard (settings : NodeSettings) (preds : VaultPreds)
    (touched : TouchedMap) (now : Nat) (queue params : List FileEv)
    (h : settings.isConfigured = false ∨ settings.suspendFileWatching = true) :
    appendQueue settings preds touched now queue params = queue := by
  rcases h with h | h
  · rw [appendQueue, if_pos h]
  · rw [appendQueue]
    by_cases h2 : settings.isConfigured = false
    · rw [if_pos h2]
    · rw [if_neg h2, if_pos h]

/-- Witness for C9: an unconfigured engine discards a CREATE batch and the
queue stays empty. -/
theorem C9_appendQueueGuard_witness :
    appendQueue ⟨false, false⟩ ⟨fun _ => false, fun _ => false, fun _ => true⟩ [] 0 []
      [⟨QEvType.CREATE, "a.md", 1⟩] = [] :=
  C9_appendQueueGuard ⟨false, false⟩ ⟨fun _ => false, fun _ => false, fun _ => true⟩
    [] 0 [] [⟨QEvType.CREATE, "a.md", 1⟩] (Or.inl rfl)

theorem tlookup_markTouched_self (m : TouchedMap) (p : Path) (t0 : Nat) :
    tlookup (markTouched m p t0) p = some t0 := by
  rw [markTouched]
  by_cases h : (tlookup m p).isSome = true
  · rw [if_pos h]
    show alookup (aupdate m p (fun _ => t0)) p = some t0
    obtain ⟨t1, ht⟩ := Option.isSome_iff_exists.mp h
    rw [alookup_aupdate_self, show alookup m p = some t1 from ht]
    rfl
  · rw [if_neg h]
    exact alookup_append_single_self _ _ (Option.not_isSome_iff_eq_none.mp h)

theorem recentlyTouched_markTouched (m : TouchedMap) (p : Path) (t0 now : Nat) :
    recentlyTouched (markTouched m p t0) now p = decide (now - t0 < touchedTTLMs) := by
  simp [recentlyTouched, tlookup_markTouched_self]

theorem appendQueue_single_not_accepted (settings : NodeSettings) (preds : VaultPreds)
    (touched : TouchedMap) (now : Nat) (queue : List FileEv) (ev : FileEv)
    (h : acceptEvent preds touched now ev = false) :
    appendQueue settings preds touched now queue [ev] = queue := by
  rw [appendQueue]
  split
  · rfl
  · split
    · rfl
    · rw [List.filter_cons, if_neg (by rw [h]; simp), List.filter_nil, List.append_nil]

/-- C5: (a) after `touched(path)` records the marker at `t0`, a CREATE or
CHANGED candidate for that path reaching queue acceptance at `now` with
`now - t0` inside the TTL (source constant 5000) is rejected by
`appendQueue` regardless of the other predicates — nothing is appended to
the FIFO buffer; (b) once the TTL has expired, an otherwise acceptable
identical candidate is accepted and appended normally; (c) meanwhile the
detector's pending table, which never consults the touched registry, still
records a freshly appearing path as a pending CREATE in the same situation.
-/
theorem C5_selfLoopSuppression :
    (∀ (settings : NodeSettings) (preds : VaultPreds) (touched : TouchedMap)
        (p : Path) (t0 now : Nat) (queue : List FileEv) (ev : FileEv),
        ev.path = p → (ev.qtype = QEvType.CREATE ∨ ev.qtype = QEvType.CHANGED) →
        now - t0 < touchedTTLMs →
        acceptEvent preds (markTouched touched p t0) now ev = false
        ∧ appendQueue settings preds (markTouched touched p t0) now queue [ev]
            = queue)
    ∧ (∀ (settings : NodeSettings) (preds : VaultPreds) (touched : TouchedMap)
        (p : Path) (t0 now : Nat) (queue : List FileEv) (ev : FileEv),
        settings.isConfigured = true → settings.suspendFileWatching = false →
        ev.path = p → preds.shouldBeIgnored p = false →
        preds.isFileSizeTooLarge ev.size = false → preds.isTargetFile p = true →
        touchedTTLMs ≤ now - t0 →
        acceptEvent preds (markTouched touched p t0) now ev = true
        ∧ appendQueue settings preds (markTouched touched p t0) now queue [ev]
            = queue ++ [ev])
    ∧ (∀ (cfg : WatcherConfig) (st : EngineState) (p : Path) (i : FInfo) (next : Snap)
        (now : Nat), 0 < cfg.awaitWriteFinishMs → WFKeys st.pendings → WFKeys next →
        slookup st.snapshot p = none → plookup st.pendings p = none →
        slookup next p = some i →
        plookup (pollTick cfg st now next).1.pendings p
          = some ⟨PKind.CREATE, i.mtimeMs, i.size, now, now⟩) := by
  refine ⟨?_, ?_, ?_⟩
  · intro settings preds touched p t0 now queue ev hevp htype hTTL
    have hacc : acceptEvent preds (markTouched touched p t0) now ev = false := by
      simp only [acceptEvent]
      split
      · rfl
      · split
        · rfl
        · split
          · rfl
          · split
            · rfl
            · rename_i h4
              exact absurd ⟨htype, by
                rw [hevp, recentlyTouched_markTouched]
                exact decide_eq_true hTTL⟩ h4
    exact ⟨hacc, appendQueue_single_not_accepted _ _ _ _ _ _ hacc⟩
  · intro settings preds touched p t0 now queue ev hconf hsusp hevp hig hbig htf hTTL
    have hacc : acceptEvent preds (markTouched touched p t0) now ev = true := by
      simp only [acceptEvent]
      rw [if_neg (by rw [hevp, hig]; simp),
        if_neg (fun hc => by rw [hbig] at hc; simp at hc),
        if_neg (not_not_intro (by rw [hevp]; exact htf)),
        if_neg (fun hc => by
          rw [hevp, recentlyTouched_markTouched] at hc
          have hlt := of_decide_eq_true hc.2
          omega)]
    refine ⟨hacc, ?_⟩
    rw [appendQueue, if_neg (by rw [hconf]; simp), if_neg (by rw [hsusp]; simp),
      List.filter_cons, if_pos hacc, List.filter_nil]
  · intro cfg st p i next now hq hWFp hWFn hsnap hpend hnext
    exact (pollTick_keep_step cfg st ⟨now, next⟩ hWFp hWFn hnext
      (w := ⟨PKind.CREATE, i.mtimeMs, i.size, now, now⟩)
      (by rw [hsnap, hpend]; rfl) rfl rfl
      (fun hc => by
        have h1c : cfg.awaitWriteFinishMs ≤ now - now := hc.1
        omega)
      (eventsFor_deleteEvents_notmem _ _ _ (alookup_eq_none.mp hsnap))).2.2.1

/-- Witness for C5 at concrete inputs: (a) a CREATE for a path touched 3900
ms ago is rejected and the queue is unchanged; (b) the same CREATE 5900 ms
after the touch is accepted and appended; (c) the detector still records the
fresh path as a pending CREATE. -/
theorem C5_selfLoopSuppression_witness :
    (acceptEvent ⟨fun _ => false, fun _ => false, fun _ => true⟩
        (markTouched [] "a.md" 100) 4000 ⟨QEvType.CREATE, "a.md", 1⟩ = false
      ∧ appendQueue ⟨true, false⟩ ⟨fun _ => false, fun _ => false, fun _ => true⟩
          (markTouched [] "a.md" 100) 4000 [] [⟨QEvType.CREATE, "a.md", 1⟩] = [])
    ∧ (acceptEvent ⟨fun _ => false, fun _ => false, fun _ => true⟩
        (markTouched [] "a.md" 100) 6000 ⟨QEvType.CREATE, "a.md", 1⟩ = true
      ∧ appendQueue ⟨true, false⟩ ⟨fun _ => false, fun _ => false, fun _ => true⟩
          (markTouched [] "a.md" 100) 6000 [] [⟨QEvType.CREATE, "a.md", 1⟩]
          = [] ++ [⟨QEvType.CREATE, "a.md", 1⟩])
    ∧ plookup (pollTick {} ⟨[], []⟩ 5 [("a.md", ⟨10, 3⟩)]).1.pendings "a.md"
        = some ⟨PKind.CREATE, 10, 3, 5, 5⟩ :=
  ⟨C5_selfLoopSuppression.1 ⟨true, false⟩
      ⟨fun _ => false, fun _ => false, fun _ => true⟩ [] "a.md" 100 4000 []
      ⟨QEvType.CREATE, "a.md", 1⟩ rfl (Or.inl rfl) (by decide),
   C5_selfLoopSuppression.2.1 ⟨true, false⟩
      ⟨fun _ => false, fun _ => false, fun _ => true⟩ [] "a.md" 100 6000 []
      ⟨QEvType.CREATE, "a.md", 1⟩ rfl rfl rfl rfl rfl rfl (by decide),
   C5_selfLoopSuppression.2.2 {} ⟨[], []⟩ "a.md" ⟨10, 3⟩ [("a.md", ⟨10, 3⟩)] 5
      (by decide) (by decide) (by decide) (by decide) (by decide) (by decide)⟩

theorem string_append_cancel_left {a x y : String} (h : a ++ x = a ++ y) : x = y := by
  apply String.ext
  have hd : a.data ++ x.data = a.data ++ y.data := by
    rw [← String.data_append, ← String.data_append, h]
  exact List.append_cancel_left hd

/-- C6 counterexample: the trash destination name is a pure function of the
path and the `Date.now()` millisecond, so two trashings of the same path in
the same millisecond produce the IDENTICAL destination name — they are not
distinct, refuting the claim at the concrete input `"a/b.md"` at time 1000
(with the digest instantiated; the collision holds for every digest function
because the two hash inputs coincide). -/
theorem C6_counterexample :
    trashNode "a/b.md" 1000 someDigest true
      = TrashOutcome.renamedTo "a__b.md.a/b.md:1000"
    ∧ ¬(trashDestName (normalizeVaultRelative "a/b.md") 1000 someDigest
        ≠ trashDestName (normalizeVaultRelative "a/b.md") 1000 someDigest) := by
  exact ⟨by decide, fun hne => hne rfl⟩

/-- C6 amended: the destination name of `trash` is derived deterministically
from the path and the current time via the truncated digest of
`rel + ":" + Date.now()`; two trashings of the same path produce distinct
destination names exactly when the truncated digests of their hash inputs
differ (so same-millisecond trashings collide, and distinctness across
different timestamps holds only up to hash collisions); if the rename into
the trash area fails, the operation falls back to `delete` with force set. -/
theorem C6_trashNaming :
    (∀ (rel : String) (t1 t2 : Nat) (h : String → String),
        trashDestName rel t1 h ≠ trashDestName rel t2 h
          ↔ h (rel ++ ":" ++ toString t1) ≠ h (rel ++ ":" ++ toString t2))
    ∧ (∀ (file : String) (nowMs : Nat) (h : String → String),
        trashNode file nowMs h true
          = TrashOutcome.renamedTo
              (trashDestName (normalizeVaultRelative file) nowMs h)
        ∧ trashNode file nowMs h false = TrashOutcome.deletedForce) := by
  constructor
  · intro rel t1 t2 h
    constructor
    · intro hne hh
      exact hne (by rw [trashDestName, trashDestName, hh])
    · intro hh hn
      exact hh (string_append_cancel_left hn)
  · intro file nowMs h
    exact ⟨rfl, rfl⟩

/-- Witness for the amended C6: for the concrete path `"a/b.md"` and times
1000 and 1001 the destination names differ exactly when the digests differ,
and the two trash outcomes evaluate as stated. -/
theorem C6_trashNaming_witness :
    (trashDestName "a/b.md" 1000 someDigest ≠ trashDestName "a/b.md" 1001 someDigest
      ↔ someDigest ("a/b.md" ++ ":" ++ toString 1000)
          ≠ someDigest ("a/b.md" ++ ":" ++ toString 1001))
    ∧ (trashNode "a/b.md" 1000 someDigest true
        = TrashOutcome.renamedTo
            (trashDestName (normalizeVaultRelative "a/b.md") 1000 someDigest)
      ∧ trashNode "a/b.md" 1000 someDigest false = TrashOutcome.deletedForce) :=
  ⟨C6_trashNaming.1 "a/b.md" 1000 1001 someDigest,
   C6_trashNaming.2 "a/b.md" 1000 someDigest⟩

/-- C10: `stat` and the synchronous `getFileStub` return the explicit absent
result (`null`) both when `fs.stat` fails (the path does not exist — the
`none` input, absorbed by the surrounding `try/catch`, so neither function
ever throws) and when the path exists but is not a regular file; metadata
(resp. a stub) is produced exactly for regular files, and then carries the
stat's `ctimeMs`/`mtimeMs`/`size` with type `"file"`. -/
theorem C10_statAbsentSemantics :
    (∀ o : Option RawStat,
        statNode o ≠ none ↔ ∃ st, o = some st ∧ st.kind = FsKind.file)
    ∧ (∀ (r : String) (o : Option RawStat),
        getFileStubNode r o ≠ none ↔ ∃ st, o = some st ∧ st.kind = FsKind.file)
    ∧ (∀ st : RawStat, st.kind = FsKind.file →
        statNode (some st) = some ⟨st.ctimeMs, st.mtimeMs, st.size, "file"⟩)
    ∧ (∀ (r : String) (st : RawStat), st.kind = FsKind.file →
        getFileStubNode r (some st)
          = some ⟨basenamePosix (normalizeVaultRelative r), normalizeVaultRelative r,
              ⟨st.ctimeMs, st.mtimeMs, st.size, "file"⟩⟩) := by
  refine ⟨?_, ?_, ?_, ?_⟩
  · intro o
    cases o with
    | none => simp [statNode]
    | some st =>
        by_cases hk : st.kind = FsKind.file
        · simp [statNode, hk]
        · simp [statNode, hk]
  · intro r o
    cases o with
    | none => simp [getFileStubNode]
    | some st =>
        by_cases hk : st.kind = FsKind.file
        · simp [getFileStubNode, hk]
        · simp [getFileStubNode, hk]
  · intro st hk
    simp [statNode, hk]
  · intro r st hk
    simp [getFileStubNode, hk]

/-- Witness for C10: a directory gives the absent result from both
operations, and a regular file gives exactly the expected metadata/stub. -/
theorem C10_statAbsentSemantics_witness :
    (statNode (some ⟨FsKind.dir, 1, 2, 3⟩) ≠ none
      ↔ ∃ st, (some ⟨FsKind.dir, 1, 2, 3⟩ : Option RawStat) = some st
          ∧ st.kind = FsKind.file)
    ∧ statNode (some ⟨FsKind.file, 1, 2, 3⟩) = some ⟨1, 2, 3, "file"⟩
    ∧ getFileStubNode "a/b.md" (some ⟨FsKind.file, 1, 2, 3⟩)
        = some ⟨basenamePosix (normalizeVaultRelative "a/b.md"),
            normalizeVaultRelative "a/b.md", ⟨1, 2, 3, "file"⟩⟩ :=
  ⟨C10_statAbsentSemantics.1 (some ⟨FsKind.dir, 1, 2, 3⟩),
   C10_statAbsentSemantics.2.2.1 ⟨FsKind.file, 1, 2, 3⟩ rfl,
   C10_statAbsentSemantics.2.2.2 "a/b.md" ⟨FsKind.file, 1, 2, 3⟩ rfl⟩

theorem countP_set_some {α : Type} (p : α → Bool) (l : List α) (i : Nat) (a b : α)
    (h : l[i]? = some a) :
    (l.set i b).countP p + (if p a then 1 else 0)
      = l.countP p + (if p b then 1 else 0) := by
  induction l generalizing i with
  | nil => simp at h
  | cons x xs ih =>
      cases i with
      | zero =>
          obtain rfl : x = a := by simpa using h
          rw [List.set_cons_zero, List.countP_cons, List.countP_cons]
          omega
      | succ k =>
          have h2 : xs[k]? = some a := by simpa using h
          rw [List.set_cons_succ, List.countP_cons, List.countP_cons]
          have h3 := ih k h2
          omega

theorem getElem?_set_of_lt {α : Type} (l : List α) (i : Nat) (a : α)
    (h : i < l.length) (j : Nat) :
    (l.set i a)[j]? = if i = j then some a else l[j]? := by
  rw [List.getElem?_set]
  by_cases hij : i = j
  · rw [if_pos hij, if_pos hij, if_pos (hij ▸ h)]
  · rw [if_neg hij, if_neg hij]

theorem DInv_init (n : Nat) (paths : List Path) : DInv n paths (initTasks paths.length) := by
  refine ⟨by simp [initTasks], ?_, ?_, ?_⟩
  · have h0 : slotsUsed (initTasks paths.length) = 0 := by
      rw [slotsUsed, List.countP_eq_zero]
      intro a ha
      obtain ⟨-, rfl⟩ := List.mem_replicate.mp ha
      decide
    omega
  · intro i t h hres
    rw [initTasks, List.getElem?_replicate] at h
    split at h
    · cases Option.some_inj.mp h
      simp at hres
    · exact absurd h (by simp)
  · intro i j ti tj hij hpath hi hj hph
    rw [initTasks, List.getElem?_replicate] at hj
    split at hj
    · cases Option.some_inj.mp hj
      rcases hph with hph | hph <;> exact absurd hph (by decide)
    · exact absurd hj (by simp)

theorem DInv_step {n : Nat} {paths : List Path} {s s2 : List TaskState}
    (hstep : DispatchStep n paths s s2) (hinv : DInv n paths s) : DInv n paths s2 := by
  obtain ⟨hlen, hslots, hres, hord⟩ := hinv
  cases hstep with
  | start i r hi hfifo =>
      obtain ⟨hilen, -⟩ := List.getElem?_eq_some.mp hi
      refine ⟨by rw [List.length_set]; exact hlen, ?_, ?_, ?_⟩
      · have hc : (s.set i ⟨TPhase.waitingSlot, r⟩).countP (fun t => usesSlot t.phase) + 0
            = s.countP (fun t => usesSlot t.phase) + 0 :=
          countP_set_some (fun t => usesSlot t.phase) s i
            ⟨TPhase.queued, r⟩ ⟨TPhase.waitingSlot, r⟩ hi
        rw [slotsUsed] at hslots ⊢
        omega
      · intro j t hj ht
        rw [getElem?_set_of_lt _ _ _ hilen] at hj
        by_cases hij : i = j
        · rw [if_pos hij] at hj
          cases Option.some_inj.mp hj
          exact TPhase.noConfusion (hres i ⟨TPhase.queued, r⟩ hi ht)
        · rw [if_neg hij] at hj
          exact hres j t hj ht
      · intro i2 j2 ti tj hij2 hpath hi2 hj2 hph
        rw [getElem?_set_of_lt _ _ _ hilen] at hi2 hj2
        by_cases hji : i = j2
        · rw [if_pos hji] at hj2
          cases Option.some_inj.mp hj2
          rcases hph with hph | hph <;> exact TPhase.noConfusion hph
        · rw [if_neg hji] at hj2
          by_cases hii : i = i2
          · rw [if_pos hii] at hi2
            cases Option.some_inj.mp hi2
            exact TPhase.noConfusion
              (hord i2 j2 ⟨TPhase.queued, r⟩ tj hij2 hpath (hii ▸ hi) hj2 hph)
          · rw [if_neg hii] at hi2
            exact hord i2 j2 ti tj hij2 hpath hi2 hj2 hph
  | grant i r hi hfifo hcap =>
      obtain ⟨hilen, -⟩ := List.getElem?_eq_some.mp hi
      refine ⟨by rw [List.length_set]; exact hlen, ?_, ?_, ?_⟩
      · have hc : (s.set i ⟨TPhase.waitingLock, r⟩).countP (fun t => usesSlot t.phase) + 0
            = s.countP (fun t => usesSlot t.phase) + 1 :=
          countP_set_some (fun t => usesSlot t.phase) s i
            ⟨TPhase.waitingSlot, r⟩ ⟨TPhase.waitingLock, r⟩ hi
        rw [slotsUsed] at hcap ⊢
        omega
      · intro j t hj ht
        rw [getElem?_set_of_lt _ _ _ hilen] at hj
        by_cases hij : i = j
        · rw [if_pos hij] at hj
          cases Option.some_inj.mp hj
          exact TPhase.noConfusion (hres i ⟨TPhase.waitingSlot, r⟩ hi ht)
        · rw [if_neg hij] at hj
          exact hres j t hj ht
      · intro i2 j2 ti tj hij2 hpath hi2 hj2 hph
        rw [getElem?_set_of_lt _ _ _ hilen] at hi2 hj2
        by_cases hji : i = j2
        · rw [if_pos hji] at hj2
          cases Option.some_inj.mp hj2
          rcases hph with hph | hph <;> exact TPhase.noConfusion hph
        · rw [if_neg hji] at hj2
          by_cases hii : i = i2
          · rw [if_pos hii] at hi2
            cases Option.some_inj.mp hi2
            exact TPhase.noConfusion
              (hord i2 j2 ⟨TPhase.waitingSlot, r⟩ tj hij2 hpath (hii ▸ hi) hj2 hph)
          · rw [if_neg hii] at hi2
            exact hord i2 j2 ti tj hij2 hpath hi2 hj2 hph
  | enter i r hi hmutex hkeyfifo =>
      obtain ⟨hilen, -⟩ := List.getElem?_eq_some.mp hi
      refine ⟨by rw [List.length_set]; exact hlen, ?_, ?_, ?_⟩
      · have hc : (s.set i ⟨TPhase.processing, r⟩).countP (fun t => usesSlot t.phase) + 1
            = s.countP (fun t => usesSlot t.phase) + 1 :=
          countP_set_some (fun t => usesSlot t.phase) s i
            ⟨TPhase.waitingLock, r⟩ ⟨TPhase.processing, r⟩ hi
        rw [slotsUsed] at hslots ⊢
        omega
      · intro j t hj ht
        rw [getElem?_set_of_lt _ _ _ hilen] at hj
        by_cases hij : i = j
        · rw [if_pos hij] at hj
          cases Option.some_inj.mp hj
          exact TPhase.noConfusion (hres i ⟨TPhase.waitingLock, r⟩ hi ht)
        · rw [if_neg hij] at hj
          exact hres j t hj ht
      · intro i2 j2 ti tj hij2 hpath hi2 hj2 hph
        rw [getElem?_set_of_lt _ _ _ hilen] at hi2 hj2
        by_cases hji : i = j2
        · subst hji
          by_cases hii : i = i2
          · omega
          · rw [if_neg hii] at hi2
            have hph2 := hkeyfifo i2 hij2 hpath
            rw [phaseAt, hi2] at hph2
            exact Option.some_inj.mp hph2
        · rw [if_neg hji] at hj2
          by_cases hii : i = i2
          · rw [if_pos hii] at hi2
            cases Option.some_inj.mp hi2
            exact TPhase.noConfusion
              (hord i2 j2 ⟨TPhase.waitingLock, r⟩ tj hij2 hpath (hii ▸ hi) hj2 hph)
          · rw [if_neg hii] at hi2
            exact hord i2 j2 ti tj hij2 hpath hi2 hj2 hph
  | finish i r hi =>
      obtain ⟨hilen, -⟩ := List.getElem?_eq_some.mp hi
      refine ⟨by rw [List.length_set]; exact hlen, ?_, ?_, ?_⟩
      · have hc : (s.set i ⟨TPhase.done, true⟩).countP (fun t => usesSlot t.phase) + 1
            = s.countP (fun t => usesSlot t.phase) + 0 :=
          countP_set_some (fun t => usesSlot t.phase) s i
            ⟨TPhase.processing, r⟩ ⟨TPhase.done, true⟩ hi
        rw [slotsUsed] at hslots ⊢
        omega
      · intro j t hj ht
        rw [getElem?_set_of_lt _ _ _ hilen] at hj
        by_cases hij : i = j
        · rw [if_pos hij] at hj
          cases Option.some_inj.mp hj
          rfl
        · rw [if_neg hij] at hj
          exact hres j t hj ht
      · intro i2 j2 ti tj hij2 hpath hi2 hj2 hph
        rw [getElem?_set_of_lt _ _ _ hilen] at hi2 hj2
        by_cases hii : i = i2
        · rw [if_pos hii] at hi2
          cases Option.some_inj.mp hi2
          rfl
        · rw [if_neg hii] at hi2
          by_cases hji : i = j2
          · rw [if_pos hji] at hj2
            cases Option.some_inj.mp hj2
            exact hord i2 j2 ti ⟨TPhase.processing, r⟩ hij2 hpath hi2 (hji ▸ hi)
              (Or.inl rfl)
          · rw [if_neg hji] at hj2
            exact hord i2 j2 ti tj hij2 hpath hi2 hj2 hph

theorem DInv_reach {n : Nat} {paths : List Path} {s : List TaskState}
    (h : DispatchReach n paths s) : DInv n paths s := by
  induction h with
  | refl => exact DInv_init n paths
  | tail hsteps hstep ih => exact DInv_step hstep ih

theorem DispatchStep_preserves_done {n : Nat} {paths : List Path}
    {s s2 : List TaskState} {i : Nat} {t : TaskState}
    (hstep : DispatchStep n paths s s2) (hi : s[i]? = some t)
    (hd : t.phase = TPhase.done) : s2[i]? = some t := by
  cases hstep with
  | start k r hk hfifo =>
      obtain ⟨hklen, -⟩ := List.getElem?_eq_some.mp hk
      rw [getElem?_set_of_lt _ _ _ hklen]
      by_cases hki : k = i
      · subst hki
        rw [hi] at hk
        cases Option.some_inj.mp hk
        exact TPhase.noConfusion hd
      · rw [if_neg hki]
        exact hi
  | grant k r hk hfifo hcap =>
      obtain ⟨hklen, -⟩ := List.getElem?_eq_some.mp hk
      rw [getElem?_set_of_lt _ _ _ hklen]
      by_cases hki : k = i
      · subst hki
        rw [hi] at hk
        cases Option.some_inj.mp hk
        exact TPhase.noConfusion hd
      · rw [if_neg hki]
        exact hi
  | enter k r hk hmutex hkeyfifo =>
      obtain ⟨hklen, -⟩ := List.getElem?_eq_some.mp hk
      rw [getElem?_set_of_lt _ _ _ hklen]
      by_cases hki : k = i
      · subst hki
        rw [hi] at hk
        cases Option.some_inj.mp hk
        exact TPhase.noConfusion hd
      · rw [if_neg hki]
        exact hi
  | finish k r hk =>
      obtain ⟨hklen, -⟩ := List.getElem?_eq_some.mp hk
      rw [getElem?_set_of_lt _ _ _ hklen]
      by_cases hki : k = i
      · subst hki
        rw [hi] at hk
        cases Option.some_inj.mp hk
        exact TPhase.noConfusion hd
      · rw [if_neg hki]
        exact hi

theorem DispatchSteps_preserve_done {n : Nat} {paths : List Path}
    {s s2 : List TaskState} {i : Nat} {t : TaskState}
    (hsteps : Relation.ReflTransGen (DispatchStep n paths) s s2)
    (hi : s[i]? = some t) (hd : t.phase = TPhase.done) : s2[i]? = some t := by
  induction hsteps with
  | refl => exact hi
  | tail hs hstep ih => exact DispatchStep_preserves_done hstep ih hd

/-- C3: in every reachable state of the dispatch loop with concurrency limit
`n`, (a) no more than `n` `processFileEvent` calls are in flight — the
semaphore permit is acquired before `processFileEvent` and released in the
`finally` block, and a permit is granted only when fewer than `n` are held;
(b) `waitForIdle()`, which awaits the `WaitInfo` promises registered in
`waitingMap` at call time, resolves only after every submitted event has
completed: if at the call state every task has already registered its handle
(which holds as soon as `appendQueue` returns, since `fireAndForget` runs
the synchronous prefix of `runQueuedEvents` — shift, register handle,
request permit — immediately), and at a later state every handle awaited is
resolved, then at that state every task is done. -/
theorem C3_concurrencyBoundAndIdle :
    (∀ (n : Nat) (paths : List Path) (s : List TaskState),
        DispatchReach n paths s → processingCount s ≤ n)
    ∧ (∀ (n : Nat) (paths : List Path) (s s2 : List TaskState),
        DispatchReach n paths s →
        Relation.ReflTransGen (DispatchStep n paths) s s2 →
        (∀ (i : Nat) (t : TaskState), s[i]? = some t → t.phase ≠ TPhase.queued) →
        (∀ (i : Nat) (t t2 : TaskState), s[i]? = some t → s2[i]? = some t2 →
          t.phase ≠ TPhase.done → t2.resolved = true) →
        ∀ (i : Nat) (t2 : TaskState), s2[i]? = some t2 → t2.phase = TPhase.done) := by
  constructor
  · intro n paths s hreach
    have hslots := (DInv_reach hreach).2.1
    have hmono : processingCount s ≤ slotsUsed s := by
      rw [processingCount, slotsUsed]
      refine List.countP_mono_left ?_
      intro t _ hp
      have hp2 := of_decide_eq_true hp
      rw [hp2]
      rfl
    omega
  · intro n paths s s2 hreach hsteps hstarted hresolved i t2 hit2
    have hreach2 : DispatchReach n paths s2 := Relation.ReflTransGen.trans hreach hsteps
    have hinv := DInv_reach hreach
    have hinv2 := DInv_reach hreach2
    have hl1 : s.length = paths.length := hinv.1
    have hl2 : s2.length = paths.length := hinv2.1
    have hilen : i < s.length := by
      have h2 : i < s2.length := (List.getElem?_eq_some.mp hit2).1
      omega
    obtain ⟨t, ht⟩ : ∃ t, s[i]? = some t := ⟨s[i], List.getElem?_eq_getElem hilen⟩
    by_cases hdone : t.phase = TPhase.done
    · have hpres := DispatchSteps_preserve_done hsteps ht hdone
      rw [hit2] at hpres
      cases Option.some_inj.mp hpres
      exact hdone
    · exact hinv2.2.2.1 i t2 hit2 (hresolved i t t2 ht hit2 hdone)

/-- Witness for C3: with limit 2 and two distinct-path tasks, the state with
both tasks inside `processFileEvent` is reachable and respects the bound;
running both tasks to completion from the all-registered state leaves every
task done once every handle is resolved. -/
theorem C3_concurrencyBoundAndIdle_witness :
    processingCount [⟨TPhase.processing, false⟩, ⟨TPhase.processing, false⟩] ≤ 2
    ∧ (⟨TPhase.done, true⟩ : TaskState).phase = TPhase.done := by
  have hreach : DispatchReach 2 ["a", "b"]
      [⟨TPhase.processing, false⟩, ⟨TPhase.processing, false⟩] :=
    Relation.ReflTransGen.tail (Relation.ReflTransGen.tail (Relation.ReflTransGen.tail
      (Relation.ReflTransGen.tail (Relation.ReflTransGen.tail
        (Relation.ReflTransGen.tail Relation.ReflTransGen.refl
          (DispatchStep.start _ 0 false (by decide) (by decide)))
        (DispatchStep.start _ 1 false (by decide) (by decide)))
      (DispatchStep.grant _ 0 false (by decide) (by decide) (by decide)))
      (DispatchStep.grant _ 1 false (by decide) (by decide) (by decide)))
      (DispatchStep.enter _ 0 false (by decide) (by decide) (by decide)))
      (DispatchStep.enter _ 1 false (by decide) (by decide) (by decide))
  have hsteps : Relation.ReflTransGen (DispatchStep 2 ["a", "b"])
      [⟨TPhase.processing, false⟩, ⟨TPhase.processing, false⟩]
      [⟨TPhase.done, true⟩, ⟨TPhase.done, true⟩] :=
    Relation.ReflTransGen.tail (Relation.ReflTransGen.tail Relation.ReflTransGen.refl
      (DispatchStep.finish _ 0 false (by decide)))
      (DispatchStep.finish _ 1 false (by decide))
  refine ⟨C3_concurrencyBoundAndIdle.1 2 ["a", "b"] _ hreach, ?_⟩
  refine C3_concurrencyBoundAndIdle.2 2 ["a", "b"]
    [⟨TPhase.processing, false⟩, ⟨TPhase.processing, false⟩]
    [⟨TPhase.done, true⟩, ⟨TPhase.done, true⟩] hreach hsteps ?_ ?_ 0 ⟨TPhase.done, true⟩
    rfl
  · intro i t h
    match i, h with
    | 0, h => cases Option.some_inj.mp h; decide
    | 1, h => cases Option.some_inj.mp h; decide
    | (k+2), h => simp at h
  · intro i t t2 h h2 hnd
    match i, h2 with
    | 0, h2 => cases Option.some_inj.mp h2; rfl
    | 1, h2 => cases Option.some_inj.mp h2; rfl
    | (k+2), h2 => simp at h2

/-- C4: in every reachable state of the dispatch loop, if of two tasks for
the same path the later-submitted one is inside `processFileEvent` (or has
already finished), then the earlier-submitted one has fully finished — i.e.
two events queued for the same path reach the downstream consumer strictly
sequentially and in submission order.  This rests on the FIFO shift of the
buffer, the FIFO permit grant of the semaphore, and the keyed FIFO mutual
exclusion of `serialized`. -/
theorem C4_perPathOrdering (n : Nat) (paths : List Path) (s : List TaskState)
    (hreach : DispatchReach n paths s) (i j : Nat) (ti tj : TaskState)
    (hij : i < j) (hpath : paths[i]? = paths[j]?)
    (hi : s[i]? = some ti) (hj : s[j]? = some tj)
    (hproc : tj.phase = TPhase.processing ∨ tj.phase = TPhase.done) :
    ti.phase = TPhase.done :=
  (DInv_reach hreach).2.2.2 i j ti tj hij hpath hi hj hproc

/-- Witness for C4: with limit 1 and two tasks for the same path "a", the
state where the second task is processing is reachable only with the first
task done. -/
theorem C4_perPathOrdering_witness :
    ([⟨TPhase.done, true⟩, ⟨TPhase.processing, false⟩] : List TaskState)[0]?
      = some ⟨TPhase.done, true⟩
    ∧ (⟨TPhase.done, true⟩ : TaskState).phase = TPhase.done := by
  have hreach : DispatchReach 1 ["a", "a"]
      [⟨TPhase.done, true⟩, ⟨TPhase.processing, false⟩] :=
    Relation.ReflTransGen.tail (Relation.ReflTransGen.tail (Relation.ReflTransGen.tail
      (Relation.ReflTransGen.tail (Relation.ReflTransGen.tail
        (Relation.ReflTransGen.tail (Relation.ReflTransGen.tail
          Relation.ReflTransGen.refl
          (DispatchStep.start _ 0 false (by decide) (by decide)))
        (DispatchStep.start _ 1 false (by decide) (by decide)))
      (DispatchStep.grant _ 0 false (by decide) (by decide) (by decide)))
      (DispatchStep.enter _ 0 false (by decide) (by decide) (by decide)))
      (DispatchStep.finish _ 0 false (by decide)))
      (DispatchStep.grant _ 1 false (by decide) (by decide) (by decide)))
      (DispatchStep.enter _ 1 false (by decide) (by decide) (by decide))
  exact ⟨rfl, C4_perPathOrdering 1 ["a", "a"]
    [⟨TPhase.done, true⟩, ⟨TPhase.processing, false⟩] hreach 0 1
    ⟨TPhase.done, true⟩ ⟨TPhase.processing, false⟩ (by decide) rfl rfl rfl
    (Or.inl rfl)⟩

end LiveSyncNode
